import Mathlib

/-!
Verification of the `smartcopy` synchronization engine (Go, `main.go`,
version 1.2.1): the freshness comparator `needsUpdate`, the FAT timestamp
sanitizer `sanitizeFATTime`, the file copier `copyFile`, the recursive
directory synchronizer `copyDirectory` / `copyRecursively`, the extra-entry
reconciler `handleExtraFiles`, the speed computations of `copyFile` and
`showSummary`, and the argument handling of `run`.

Modelling conventions:
  * `time.Time` and `time.Duration` values are modelled as `Int` counts of
    nanoseconds (Go durations are integer nanoseconds; `time.Time` carries
    nanosecond precision).  A `time.Duration` is an int64: `Time.Sub`
    saturates an out-of-range difference at `minDuration`/`maxDuration`
    and negating `MinInt64` wraps, which `timeSub` and `negInt64` model
    explicitly.  The FAT range bounds are the Unix instants of
    1980-01-01T00:00:00 and 2107-12-31T23:59:58; the local-time zone offset
    used by the Go code shifts both bounds and every compared timestamp by
    the same constant, so it is immaterial to every ordering fact proved here.
  * Results of `os.Stat` are modelled by `StatResult`: the path does not
    exist, stat failed with some other error, or stat returned a `FileInfo`.
  * File systems are modelled by the tree type `FSTree`; a directory's child
    list is its directory listing (both `os.ReadDir` and `filepath.Walk`
    yield entries sorted by name, so both traversals follow the list order).
  * Relative paths are lists of path components (`filepath.Rel` output,
    split at separators).
  * Effects of the imperative code are made explicit: statistics are passed
    and returned, file-system mutation is a function on `FSTree`, and the
    order of I/O operations is recorded in explicit event traces.
  * Outcomes of external I/O calls that can fail (`os.MkdirAll`, `os.Open`,
    `io.Copy`, `os.Remove`, ...) are supplied by oracle parameters, so the
    theorems quantify over every possible success/failure pattern.
-/

/-- A relative path: the list of its components. -/
abbrev RelPath := List String

/-- The part of `os.FileInfo` the engine reads: `Size()`, `ModTime()`
(nanoseconds), `IsDir()`. -/
structure FileInfo where
  size : Int
  modTimeNs : Int
  isDir : Bool
  deriving Repr, DecidableEq

/-- Result of an `os.Stat` call as the engine distinguishes them:
`os.IsNotExist(err)`, any other error, or success. -/
inductive StatResult where
  | notExist
  | accessError
  | found (info : FileInfo)
  deriving Repr, DecidableEq

/-- The error kinds surfaced by the engine (spec taxonomy §7). -/
inductive CopyError where
  | missingSource
  | ioAccess
  | ioTransfer
  | ioMetadata
  | invalidArguments
  deriving Repr, DecidableEq

/-- The statistics accumulator `CopyStats` of `main.go`. -/
structure CopyStats where
  filesCopied : Nat
  filesSkipped : Nat
  bytesCopied : Int
  extraFound : Nat
  extraDeleted : Nat
  extraBytes : Int
  deriving Repr, DecidableEq

/-- A fresh accumulator, as built at the start of `run`. -/
def CopyStats.init : CopyStats := ⟨0, 0, 0, 0, 0, 0⟩

/-- The synchronization options of `main.go`. -/
structure SyncOptions where
  detectExtra : Bool
  deleteExtra : Bool
  deriving Repr, DecidableEq

/-- `5 * time.Second` in nanoseconds: the drift tolerance of `needsUpdate`. -/
def fiveSecondsNs : Int := 5 * 1000000000

/-- `minDuration` of Go's `time` package: `math.MinInt64` nanoseconds, the
lower bound of the int64 `time.Duration`. -/
def minDurationNs : Int := -9223372036854775808

/-- `maxDuration` of Go's `time` package: `math.MaxInt64` nanoseconds. -/
def maxDurationNs : Int := 9223372036854775807

/-- `t.Sub(u)` of Go's `time` package: the true nanosecond difference when
it fits in int64, otherwise saturated to `minDuration` / `maxDuration`
(the overflow check inside `Time.Sub`). -/
def timeSub (t u : Int) : Int :=
  if t - u < minDurationNs then minDurationNs
  else if t - u > maxDurationNs then maxDurationNs
  else t - u

/-- Two's-complement int64 negation, as performed by `timeDiff = -timeDiff`
on a `time.Duration`: negating `MinInt64` wraps to `MinInt64` itself; every
other value negates exactly. -/
def negInt64 (d : Int) : Int :=
  if d = minDurationNs then minDurationNs else -d

/-- `time.Date(1980, time.January, 1, 0, 0, 0, 0, time.Local)` in
nanoseconds since the Unix epoch (zone offset normalised out, see above). -/
def fatMinNs : Int := 315532800 * 1000000000

/-- `time.Date(2107, time.December, 31, 23, 59, 58, 0, time.Local)` in
nanoseconds since the Unix epoch (zone offset normalised out, see above). -/
def fatMaxNs : Int := 4354819198 * 1000000000

/-- `sanitizeFATTime` of `main.go`: clamp a timestamp into the FAT range.
`t.Before(min)` is a strict `<` comparison and `t.After(max)` a strict `>`. -/
def sanitizeFATTime (t : Int) : Int :=
  if t < fatMinNs then fatMinNs
  else if t > fatMaxNs then fatMaxNs
  else t

/-- `needsUpdate(src, dst, srcInfo)` of `main.go`.  The `dst` argument is
replaced by the outcome of the `os.Stat(dst)` call it performs.
Mirrors the Go control flow: missing destination → copy; other stat error →
I/O-Access error; size mismatch → copy; otherwise compute the int64
`Sub` difference, negate it when negative (wrapping at `MinInt64`), and
copy iff the result exceeds `5 * time.Second`. -/
def needsUpdate (srcInfo : FileInfo) (dstStat : StatResult) :
    Except CopyError Bool :=
  match dstStat with
  | .notExist => .ok true
  | .accessError => .error .ioAccess
  | .found dstInfo =>
    if srcInfo.size ≠ dstInfo.size then .ok true
    else
      let timeDiff := timeSub srcInfo.modTimeNs dstInfo.modTimeNs
      let timeDiff := if timeDiff < 0 then negInt64 timeDiff else timeDiff
      if timeDiff > fiveSecondsNs then .ok true
      else .ok false

/-- Outcomes of the fallible I/O calls inside `copyFile`, supplied as an
oracle: the destination `os.Stat` (inside `needsUpdate`), `os.MkdirAll`,
`os.Open` on the source, `os.OpenFile` on the destination, `io.Copy`
(`.error k` = transfer failed after `k` bytes were written), `Sync`,
`Close`, and `os.Chtimes`. -/
structure FileIOEnv where
  dstStat : StatResult
  mkdirAllOk : Bool
  openSrcOk : Bool
  createDstOk : Bool
  transfer : Except Int Int
  syncOk : Bool
  closeOk : Bool
  chtimesOk : Bool
  deriving Repr

/-- The observable result of one `copyFile` call: the updated statistics,
the number of bytes written into the destination file, and the error
returned (if any). -/
structure CopyFileResult where
  stats : CopyStats
  bytesWrittenToDst : Int
  error : Option CopyError
  deriving Repr, DecidableEq

/-- `copyFile(src, dst, srcInfo, stats)` of `main.go`, with the outcomes of
its I/O calls supplied by `env`, following the source's control flow:
consult `needsUpdate`; if no copy is needed count a skip and return with no
write; otherwise mkdir the parent, open both files, stream the bytes, sync
and close the destination, set the sanitized timestamp, and count the copy. -/
def copyFile (env : FileIOEnv) (srcInfo : FileInfo) (stats : CopyStats) :
    CopyFileResult :=
  match needsUpdate srcInfo env.dstStat with
  | .error e => ⟨stats, 0, some e⟩
  | .ok false =>
    ⟨{ stats with filesSkipped := stats.filesSkipped + 1 }, 0, none⟩
  | .ok true =>
    if ¬ env.mkdirAllOk then ⟨stats, 0, some .ioAccess⟩
    else if ¬ env.openSrcOk then ⟨stats, 0, some .ioAccess⟩
    else if ¬ env.createDstOk then ⟨stats, 0, some .ioAccess⟩
    else
      match env.transfer with
      | .error k => ⟨stats, k, some .ioTransfer⟩
      | .ok n =>
        if ¬ env.syncOk then ⟨stats, n, some .ioTransfer⟩
        else if ¬ env.closeOk then ⟨stats, n, some .ioTransfer⟩
        else if ¬ env.chtimesOk then ⟨stats, n, some .ioMetadata⟩
        else
          ⟨{ stats with
              filesCopied := stats.filesCopied + 1,
              bytesCopied := stats.bytesCopied + n }, n, none⟩

/-- A file-system tree: a file with its size and modification time, or a
directory with its modification time and its listed children (name, subtree),
in directory-listing order. -/
inductive FSTree where
  | file (size : Int) (modTimeNs : Int)
  | dir (modTimeNs : Int) (children : List (String × FSTree))
  deriving Repr

/-- One I/O event of the recursive synchronizer, in program order:
`os.MkdirAll` on a destination directory, the `copyFile` call on a
destination file path, or `os.Chtimes` on a destination directory. -/
inductive SyncEvent where
  | mkdirDir (path : RelPath)
  | fileOp (path : RelPath)
  | chtimesDir (path : RelPath) (timeNs : Int)
  deriving Repr, DecidableEq

/-- The destination path an event touches. -/
def SyncEvent.path : SyncEvent → RelPath
  | .mkdirDir p => p
  | .fileOp p => p
  | .chtimesDir p _ => p

mutual

/-- `copyRecursively`/`copyDirectory` of `main.go` as an event trace.
`fails p = true` means the `copyFile` call on destination path `p` returns
an error (its internal effects are covered by `copyFile` above; here only
the call and its success matter).  For a directory: create it, synchronize
every child in order stopping at the first failure, and only when all
children succeeded set the directory's own time to the sanitized source
time.  Returns the emitted events and whether the call returned `nil`. -/
def copyRecTrace (fails : RelPath → Bool) : FSTree → RelPath →
    List SyncEvent × Bool
  | .file _ _, dst => ([.fileOp dst], !fails dst)
  | .dir m cs, dst =>
    let rest := copyRecTraceList fails cs dst
    if rest.2 then
      (.mkdirDir dst :: rest.1 ++ [.chtimesDir dst (sanitizeFATTime m)], true)
    else
      (.mkdirDir dst :: rest.1, false)

/-- The loop over directory entries in `copyDirectory`: recurse into each
child at `dst ++ [name]`, aborting the loop at the first error. -/
def copyRecTraceList (fails : RelPath → Bool) :
    List (String × FSTree) → RelPath → List SyncEvent × Bool
  | [], _ => ([], true)
  | (n, c) :: rest, dst =>
    let head := copyRecTrace fails c (dst ++ [n])
    if head.2 then
      let tail := copyRecTraceList fails rest dst
      (head.1 ++ tail.1, tail.2)
    else
      (head.1, false)

end

mutual

/-- All relative paths of entries strictly below a tree's root, in traversal
order (the `filepath.Walk` visit order minus the root, which the Go callbacks
skip via `relPath == "."`). -/
def subPaths : FSTree → List RelPath
  | .file _ _ => []
  | .dir _ cs => subPathsList cs

/-- Relative paths contributed by a directory-entry list: each entry's own
name followed by its descendants' paths. -/
def subPathsList : List (String × FSTree) → List RelPath
  | [] => []
  | (n, t) :: rest =>
    ([n] :: (subPaths t).map (fun p => n :: p)) ++ subPathsList rest

end

/-- No two entries of a directory listing share a name. -/
def namesUnique : List String → Bool
  | [] => true
  | n :: ns => !ns.contains n && namesUnique ns

mutual

/-- Well-formed tree: every directory listing has pairwise-distinct names
(true of any tree read from a real file system). -/
def wfTree : FSTree → Bool
  | .file _ _ => true
  | .dir _ cs => namesUnique (cs.map Prod.fst) && wfList cs

/-- Well-formedness of every subtree in a directory-entry list. -/
def wfList : List (String × FSTree) → Bool
  | [] => true
  | (_, t) :: rest => wfTree t && wfList rest

end

mutual

/-- The destination walk of `handleExtraFiles` over the entries `cs` of the
destination directory at relative path `pre`, with `srcSet` the
`sourceItems` map: each entry is classified by `walkExtraEntry`, the results
concatenated in walk order.  Returns (extra files with sizes, extra
directories). -/
def walkExtraList (srcSet : List RelPath) (pre : RelPath) :
    List (String × FSTree) → List (RelPath × Int) × List RelPath
  | [] => ([], [])
  | (n, t) :: rest =>
    let here := walkExtraEntry srcSet pre n t
    let tail := walkExtraList srcSet pre rest
    (here.1 ++ tail.1, here.2 ++ tail.2)

/-- One step of the destination walk: an entry whose relative path is in
the source set is descended into when it is a directory and skipped when it
is a file; an entry absent from the source set is recorded as an extra
directory (subtree skipped via `filepath.SkipDir`) or as an extra file with
its size. -/
def walkExtraEntry (srcSet : List RelPath) (pre : RelPath) (n : String) :
    FSTree → List (RelPath × Int) × List RelPath
  | .dir _ cs =>
    if srcSet.contains (pre ++ [n]) then walkExtraList srcSet (pre ++ [n]) cs
    else ([], [pre ++ [n]])
  | .file sz _ =>
    if srcSet.contains (pre ++ [n]) then ([], [])
    else ([(pre ++ [n], sz)], [])

end

mutual

/-- Remove the entry at relative path `p` from a tree (`os.Remove` on a
file, `os.RemoveAll` on a directory: the entry disappears together with its
whole subtree).  A path that does not lead anywhere leaves the tree as is. -/
def removePath : FSTree → RelPath → FSTree
  | t, [] => t
  | .file s m, _ :: _ => .file s m
  | .dir m cs, n :: rest => .dir m (removeInList cs n rest)

/-- Remove path `n :: rest` inside a directory-entry list. -/
def removeInList : List (String × FSTree) → String → RelPath →
    List (String × FSTree)
  | [], _, _ => []
  | (n', t) :: cs, n, rest =>
    if n' = n then
      match rest with
      | [] => cs
      | r :: rs => (n', removePath t (r :: rs)) :: cs
    else
      (n', t) :: removeInList cs n rest

end

/-- One deletion attempt of the reconciler's delete phase, in program order:
`os.Remove` on an extra file or `os.RemoveAll` on an extra directory, with
whether it succeeded (`ok = false` is the warning path). -/
inductive DelEvent where
  | delFile (path : RelPath) (ok : Bool)
  | delDir (path : RelPath) (ok : Bool)
  deriving Repr, DecidableEq

/-- The `for _, file := range extraFiles` deletion loop: attempt every file
in order; on failure print a warning and continue, on success remove the
file and increment the extra-deleted counter.  Returns (events, tree after,
number of successful deletions). -/
def deleteFilesRun (delFails : RelPath → Bool) :
    List (RelPath × Int) → FSTree → List DelEvent × FSTree × Nat
  | [], t => ([], t, 0)
  | (p, _) :: rest, t =>
    if delFails p then
      let r := deleteFilesRun delFails rest t
      (.delFile p false :: r.1, r.2.1, r.2.2)
    else
      let r := deleteFilesRun delFails rest (removePath t p)
      (.delFile p true :: r.1, r.2.1, r.2.2 + 1)

/-- The `for _, dir := range extraDirs` deletion loop, identical policy with
`os.RemoveAll`. -/
def deleteDirsRun (delFails : RelPath → Bool) :
    List RelPath → FSTree → List DelEvent × FSTree × Nat
  | [], t => ([], t, 0)
  | p :: rest, t =>
    if delFails p then
      let r := deleteDirsRun delFails rest t
      (.delDir p false :: r.1, r.2.1, r.2.2)
    else
      let r := deleteDirsRun delFails rest (removePath t p)
      (.delDir p true :: r.1, r.2.1, r.2.2 + 1)

/-- Everything one `handleExtraFiles` call produces: the recorded extra
files (with sizes) and extra directories, the statistics after the call, the
destination tree after the optional delete phase, and the deletion events. -/
structure ExtraOutcome where
  extraFiles : List (RelPath × Int)
  extraDirs : List RelPath
  stats : CopyStats
  dstAfter : FSTree
  delTrace : List DelEvent
  deriving Repr

/-- The destination walk of `handleExtraFiles`: `filepath.Walk(dst, ...)`
visits nothing below a plain-file root (the root itself is skipped via
`relPath == "."`), and walks a directory root's entries. -/
def dstWalk (srcSet : List RelPath) : FSTree →
    List (RelPath × Int) × List RelPath
  | .file _ _ => ([], [])
  | .dir _ dcs => walkExtraList srcSet [] dcs

/-- `handleExtraFiles(src, dst, syncOptions, stats)` of `main.go`, given the
source and destination trees (their `os.Stat` succeeded — the trees are in
hand) and a deletion-failure oracle.  A plain-file source returns at once
with nothing to do.  Otherwise `sourceItems` is the set of relative paths
under the source root, the destination is walked collecting extra files and
directories (the per-file `ExtraFound`/`ExtraBytes` increments of the walk
and the per-directory increments of the loop after it sum to the totals
recorded here), and, when `deleteExtra` is set, files are deleted first and
directories after, each failure only warning.  Every path through the Go
function past the initial stat returns `nil`, hence `.ok`. -/
def handleExtraFiles (src dst : FSTree) (opts : SyncOptions)
    (delFails : RelPath → Bool) (stats : CopyStats) :
    Except CopyError ExtraOutcome :=
  match src with
  | .file _ _ => .ok ⟨[], [], stats, dst, []⟩
  | .dir _ scs =>
    let srcSet := subPathsList scs
    let w := dstWalk srcSet dst
    let stats1 :=
      { stats with
          extraFound := stats.extraFound + w.1.length + w.2.length,
          extraBytes := stats.extraBytes + (w.1.map Prod.snd).sum }
    if opts.deleteExtra then
      let f := deleteFilesRun delFails w.1 dst
      let g := deleteDirsRun delFails w.2 f.2.1
      .ok ⟨w.1, w.2,
        { stats1 with extraDeleted := stats1.extraDeleted + (f.2.2 + g.2.2) },
        g.2.1, f.1 ++ g.1⟩
    else
      .ok ⟨w.1, w.2, stats1, dst, []⟩

/-- A source argument as `run` sees it: the path string given on the command
line and the outcome of the validation `os.Stat` on it. -/
structure SourceArg where
  path : String
  stat : StatResult
  deriving Repr

/-- A top-level call `run` makes: one `copyRecursively(source, targetPath)`
invocation or one `handleExtraFiles(source, finalDestination)` invocation. -/
inductive RunEvent where
  | copyCall (source : String) (target : String)
  | reconcileCall (source : String) (finalDest : String)
  deriving Repr, DecidableEq

/-- `filepath.Base`: the last non-empty path component; `"."` for the empty
string, `"/"` when the path is all separators. -/
def baseName (s : String) : String :=
  match ((s.splitOn "/").filter (fun c => c ≠ "")).getLast? with
  | some b => b
  | none => if s = "" then "." else "/"

/-- `filepath.Join(d, n)` for a simple two-component join. -/
def joinPath (d n : String) : String := d ++ "/" ++ n

/-- The source-validation loop of `run`: the first source whose stat says
not-exist yields a Missing-Source error, any other stat failure an
I/O-Access error. -/
def validateSources : List SourceArg → Option CopyError
  | [] => none
  | s :: rest =>
    match s.stat with
    | .notExist => some .missingSource
    | .accessError => some .ioAccess
    | .found _ => validateSources rest

/-- Everything `run` consults beyond its argument list: whether the
`os.MkdirAll(destination)` performed for multiple sources succeeds, and
whether the `copyRecursively` / `handleExtraFiles` call on a given source
path fails (their internal behaviour is modelled separately; here only the
call, its target and its success matter; the error kinds stand in for the
propagated error). -/
structure RunEnv where
  mkdirDestOk : Bool
  copyFails : String → Bool
  reconcileFails : String → Bool

/-- The `for _, source := range sources` copy loop of `run`.  `singleSource`
tells which target-placement rule applies, `isDestDir` whether the initial
destination stat found a directory, `destStatErr` whether that stat returned
an error (`destErr != nil`, in which case the multi-source branch runs
`os.MkdirAll` on the destination).  Stops at the first failed copy. -/
def runCopyLoop (copyFails : String → Bool) (mkdirDestOk : Bool)
    (destination : String) (singleSource isDestDir destStatErr : Bool) :
    List SourceArg → List RunEvent × Option CopyError
  | [] => ([], none)
  | s :: rest =>
    if singleSource then
      let target :=
        if isDestDir then joinPath destination (baseName s.path)
        else destination
      if copyFails s.path then ([.copyCall s.path target], some .ioTransfer)
      else
        let r := runCopyLoop copyFails mkdirDestOk destination
          singleSource isDestDir destStatErr rest
        (.copyCall s.path target :: r.1, r.2)
    else
      if destStatErr && !mkdirDestOk then ([], some .ioAccess)
      else
        let target := joinPath destination (baseName s.path)
        if copyFails s.path then ([.copyCall s.path target], some .ioTransfer)
        else
          let r := runCopyLoop copyFails mkdirDestOk destination
            singleSource isDestDir destStatErr rest
          (.copyCall s.path target :: r.1, r.2)

/-- The command-line arguments of one run, after flag parsing: the source
paths with their stat outcomes, the destination path with its stat outcome,
and the options. -/
structure RunArgs where
  sources : List SourceArg
  destination : String
  destStat : StatResult
  opts : SyncOptions
  deriving Repr

/-- Whether the initial `os.Stat(destination)` of `run` succeeded
(`destErr == nil`). -/
def destFound : StatResult → Bool
  | .found _ => true
  | _ => false

/-- `isDestDir` of `run`: the destination stat succeeded and reported a
directory. -/
def destIsDir : StatResult → Bool
  | .found i => i.isDir
  | _ => false

/-- The tail of `run` after a successful copy loop with trace `trace`:
only when exactly one source was given and `detectExtra` is set is
`handleExtraFiles` invoked, on that source and its final destination (the
placement `run` recomputes from `isDestDir`). -/
def runExtraPhase (args : RunArgs) (env : RunEnv) (trace : List RunEvent) :
    List RunEvent × Option CopyError :=
  match args.sources, args.opts.detectExtra with
  | [s], true =>
    let finalDest :=
      if destIsDir args.destStat then
        joinPath args.destination (baseName s.path)
      else args.destination
    if env.reconcileFails s.path then
      (trace ++ [.reconcileCall s.path finalDest], some .ioAccess)
    else
      (trace ++ [.reconcileCall s.path finalDest], none)
  | _, _ => (trace, none)

/-- Dispatch on the copy loop's outcome: a copy error is returned as is
(`return err` in the loop of `run`), otherwise the extra phase runs. -/
def afterCopy (args : RunArgs) (env : RunEnv) :
    List RunEvent × Option CopyError → List RunEvent × Option CopyError
  | (trace, some e) => (trace, some e)
  | (trace, none) => runExtraPhase args env trace

/-- The copy phase of `run` followed by its extra phase: run the copy loop
over all sources, then dispatch on its outcome. -/
def runCopyPhase (args : RunArgs) (env : RunEnv) :
    List RunEvent × Option CopyError :=
  afterCopy args env
    (runCopyLoop env.copyFails env.mkdirDestOk args.destination
      (args.sources.length == 1) (destIsDir args.destStat)
      (!destFound args.destStat) args.sources)

/-- `run()` of `main.go`, down to the calls it issues: check the argument
count, validate every source, stat the destination, reject multiple sources
onto an existing non-directory destination, then run the copy phase and —
only when exactly one source was given and `detectExtra` is set — invoke
`handleExtraFiles` once on that source and its final destination.  Returns
the top-level call trace and the error `run` returns. -/
def runModel (args : RunArgs) (env : RunEnv) :
    List RunEvent × Option CopyError :=
  if args.sources.length < 1 then ([], some .invalidArguments)
  else
    match validateSources args.sources with
    | some e => ([], some e)
    | none =>
      if args.sources.length > 1 && destFound args.destStat &&
          !destIsDir args.destStat then
        ([], some .invalidArguments)
      else
        runCopyPhase args env

/-- The `elapsedSeconds` variable of `copyFile` after its guard: the elapsed
duration in seconds, raised to 0.001 when smaller (`if elapsedSeconds <
0.001 { elapsedSeconds = 0.001 }`). -/
def perFileElapsedSeconds (elapsedNs : Int) : ℚ :=
  let s : ℚ := (elapsedNs : ℚ) / 1000000000
  if s < 1/1000 then 1/1000 else s

/-- The per-file `speed` value printed by `copyFile`. -/
def perFileSpeed (bytesWritten elapsedNs : Int) : ℚ :=
  (bytesWritten : ℚ) / perFileElapsedSeconds elapsedNs

/-- The `overallSpeed` value of `showSummary`:
`float64(stats.BytesCopied) / totalTime.Seconds()`, with no guard on the
divisor. -/
def overallSpeed (bytesCopied totalNs : Int) : ℚ :=
  (bytesCopied : ℚ) / ((totalNs : ℚ) / 1000000000)

/-- `5 * time.Second` as a numeral. -/
theorem fiveSecondsNs_eq : fiveSecondsNs = 5000000000 := by
  norm_num [fiveSecondsNs]

/-- With equal sizes and an existing destination, `needsUpdate` reduces to
the tolerance test on the (wrapped-negation) int64 difference. -/
theorem needsUpdate_same_size (srcInfo dstInfo : FileInfo)
    (hsize : srcInfo.size = dstInfo.size) :
    needsUpdate srcInfo (.found dstInfo) =
      if (if timeSub srcInfo.modTimeNs dstInfo.modTimeNs < 0 then
            negInt64 (timeSub srcInfo.modTimeNs dstInfo.modTimeNs)
          else timeSub srcInfo.modTimeNs dstInfo.modTimeNs) >
          fiveSecondsNs
      then .ok true else .ok false := by
  simp [needsUpdate, hsize]

/-- The value `needsUpdate` compares against the tolerance: the true
absolute difference inside the int64 band, `minDuration` itself — still
negative, because the negation wraps — when the destination is 2^63 ns or
more newer than the source, and `maxDuration` when the source is that much
newer. -/
theorem needsUpdate_timeDiff_value (sn tn : Int) :
    (if timeSub sn tn < 0 then negInt64 (timeSub sn tn)
      else timeSub sn tn) =
      (if sn - tn ≤ minDurationNs then minDurationNs
       else if maxDurationNs < sn - tn then maxDurationNs
       else |sn - tn|) := by
  have hmin : minDurationNs = -9223372036854775808 := rfl
  have hmax : maxDurationNs = 9223372036854775807 := rfl
  by_cases h1 : sn - tn < minDurationNs
  · have hd : timeSub sn tn = minDurationNs := by
      rw [timeSub, if_pos h1]
    rw [hd, if_pos (show minDurationNs < (0 : Int) by rw [hmin]; norm_num)]
    rw [negInt64, if_pos rfl, if_pos (le_of_lt h1)]
  · by_cases h2 : maxDurationNs < sn - tn
    · have hd : timeSub sn tn = maxDurationNs := by
        rw [timeSub, if_neg h1]
        rw [if_pos h2]
      rw [hd,
        if_neg (show ¬ maxDurationNs < (0 : Int) by rw [hmax]; norm_num)]
      rw [if_neg (show ¬ sn - tn ≤ minDurationNs by
          rw [hmin]; rw [hmax] at h2; omega),
        if_pos h2]
    · have hd : timeSub sn tn = sn - tn := by
        rw [timeSub, if_neg h1, if_neg h2]
      rw [hd]
      by_cases h3 : sn - tn < 0
      · rw [if_pos h3, negInt64]
        by_cases h4 : sn - tn = minDurationNs
        · rw [if_pos h4, if_pos (le_of_eq h4)]
        · rw [if_neg h4]
          rw [if_neg (show ¬ sn - tn ≤ minDurationNs by
              rw [hmin]; rw [hmin] at h1 h4; omega),
            if_neg h2, abs_of_neg h3]
      · rw [if_neg h3]
        rw [if_neg (show ¬ sn - tn ≤ minDurationNs by
            rw [hmin]; omega),
          if_neg h2, abs_of_nonneg (not_lt.mp h3)]

/-- C1 counterexample: equal sizes and a destination exactly 2^63 ns
(about 292 years) newer than the source — an absolute drift astronomically
above 5 seconds — yet `needsUpdate` answers `.ok false` and the file is
skipped: `Time.Sub` returns `minDuration`, the `timeDiff = -timeDiff`
negation wraps back to `MinInt64`, and the `> 5s` comparison fails. -/
theorem needsUpdate_overflow_drift_skips :
    fiveSecondsNs < |(0 : Int) - 9223372036854775808| ∧
    needsUpdate ⟨5, 0, false⟩ (.found ⟨5, 9223372036854775808, false⟩) =
      .ok false := by
  constructor
  · decide
  · rfl

/-- C1 (amended): for every source file and existing destination file of
equal size, `needsUpdate` returns `true` iff the absolute difference of
their modification times exceeds 5 seconds AND the signed difference
source-minus-destination lies strictly above `MinInt64` nanoseconds; a
drift of 1 second or less never yields `true`; a drift of more than 5
seconds always yields `true` except when the destination is at least
2^63 ns (≈292 years) newer than the source, where the int64 `Sub`
saturates, the negation wraps, and `needsUpdate` returns `false`. -/
theorem needsUpdate_five_second_tolerance_int64 (srcInfo dstInfo : FileInfo)
    (hsize : srcInfo.size = dstInfo.size) :
    (needsUpdate srcInfo (.found dstInfo) = .ok true ↔
      (fiveSecondsNs < |srcInfo.modTimeNs - dstInfo.modTimeNs| ∧
        minDurationNs < srcInfo.modTimeNs - dstInfo.modTimeNs)) ∧
    (|srcInfo.modTimeNs - dstInfo.modTimeNs| ≤ 1000000000 →
      needsUpdate srcInfo (.found dstInfo) = .ok false) ∧
    (fiveSecondsNs < |srcInfo.modTimeNs - dstInfo.modTimeNs| →
      minDurationNs < srcInfo.modTimeNs - dstInfo.modTimeNs →
      needsUpdate srcInfo (.found dstInfo) = .ok true) ∧
    (srcInfo.modTimeNs - dstInfo.modTimeNs ≤ minDurationNs →
      needsUpdate srcInfo (.found dstInfo) = .ok false) := by
  have hmin : minDurationNs = -9223372036854775808 := rfl
  have hmax : maxDurationNs = 9223372036854775807 := rfl
  have h5 : fiveSecondsNs = 5000000000 := fiveSecondsNs_eq
  set d := srcInfo.modTimeNs - dstInfo.modTimeNs with hd
  have hbody := needsUpdate_same_size srcInfo dstInfo hsize
  rw [needsUpdate_timeDiff_value] at hbody
  rw [← hd] at hbody
  have habs := abs_choice d
  have habs0 := abs_nonneg d
  generalize hA : |d| = A at habs habs0 hbody ⊢
  rw [hmin, h5]
  rw [hmin, hmax, h5] at hbody
  have hdich : needsUpdate srcInfo (.found dstInfo) = .ok true ∨
      needsUpdate srcInfo (.found dstInfo) = .ok false := by
    rw [hbody]
    split_ifs <;> simp
  have hchar : needsUpdate srcInfo (.found dstInfo) = .ok true ↔
      (5000000000 < A ∧ -9223372036854775808 < d) := by
    rw [hbody]
    by_cases hA1 : d ≤ -9223372036854775808
    · rw [if_pos hA1,
        if_neg (show ¬ (-9223372036854775808 : Int) > 5000000000 by
          norm_num)]
      constructor
      · intro h
        simp at h
      · rintro ⟨-, hB⟩
        omega
    · by_cases hA2 : 9223372036854775807 < d
      · rw [if_neg hA1, if_pos hA2,
          if_pos (show (9223372036854775807 : Int) > 5000000000 by
            norm_num)]
        exact ⟨fun _ => by omega, fun _ => rfl⟩
      · rw [if_neg hA1, if_neg hA2]
        constructor
        · intro h
          by_cases hc : A > 5000000000
          · exact ⟨hc, by omega⟩
          · rw [if_neg hc] at h
            simp at h
        · rintro ⟨h5A, -⟩
          rw [if_pos h5A]
  refine ⟨hchar, ?_, ?_, ?_⟩
  · intro hA1e9
    rcases hdich with h | h
    · exfalso
      obtain ⟨hx, -⟩ := hchar.mp h
      omega
    · exact h
  · intro h1 h2
    exact hchar.mpr ⟨h1, h2⟩
  · intro hle
    rcases hdich with h | h
    · exfalso
      obtain ⟨-, hx⟩ := hchar.mp h
      omega
    · exact h

/-- Witness for C1 (amended): 6.000000001 s of drift → copy needed; 1 s of
drift → skip; destination exactly 2^63 ns newer → the saturated comparison
skips despite the enormous drift. -/
theorem needsUpdate_five_second_tolerance_int64_witness :
    needsUpdate ⟨5, 6000000001, false⟩ (.found ⟨5, 0, false⟩) = .ok true ∧
    needsUpdate ⟨5, 0, false⟩ (.found ⟨5, 1000000000, false⟩) = .ok false ∧
    needsUpdate ⟨5, 0, false⟩ (.found ⟨5, 9223372036854775808, false⟩) =
      .ok false := by
  refine ⟨(needsUpdate_five_second_tolerance_int64 ⟨5, 6000000001, false⟩
      ⟨5, 0, false⟩ rfl).2.2.1 (by decide) (by decide),
    (needsUpdate_five_second_tolerance_int64 ⟨5, 0, false⟩
      ⟨5, 1000000000, false⟩ rfl).2.1 (by decide),
    (needsUpdate_five_second_tolerance_int64 ⟨5, 0, false⟩
      ⟨5, 9223372036854775808, false⟩ rfl).2.2.2 (by decide)⟩

/-- C2: the timestamp sanitizer returns the 1980-01-01 floor for earlier
times, the 2107-12-31T23:59:58 ceiling for later times, the input itself
otherwise, and its value always lies in the closed range; as a total
function it has no error path. -/
theorem sanitizeFATTime_clamps (t : Int) :
    (t < fatMinNs → sanitizeFATTime t = fatMinNs) ∧
    (t > fatMaxNs → sanitizeFATTime t = fatMaxNs) ∧
    (fatMinNs ≤ t → t ≤ fatMaxNs → sanitizeFATTime t = t) ∧
    fatMinNs ≤ sanitizeFATTime t ∧ sanitizeFATTime t ≤ fatMaxNs := by
  unfold sanitizeFATTime fatMinNs fatMaxNs
  split_ifs with h1 h2 <;> omega

/-- Witness for C2: an epoch-origin time clamps to the floor, a far-future
time to the ceiling, an in-range time is returned unchanged. -/
theorem sanitizeFATTime_clamps_witness :
    sanitizeFATTime 0 = fatMinNs ∧
    sanitizeFATTime (9999999999 * 1000000000) = fatMaxNs ∧
    sanitizeFATTime (1000000000 * 1000000000) = 1000000000 * 1000000000 := by
  refine ⟨(sanitizeFATTime_clamps 0).1 ?_,
    (sanitizeFATTime_clamps (9999999999 * 1000000000)).2.1 ?_,
    (sanitizeFATTime_clamps (1000000000 * 1000000000)).2.2.1 ?_ ?_⟩ <;>
    norm_num [fatMinNs, fatMaxNs]

/-- C3: whenever the freshness comparator decides no copy is needed,
`copyFile` returns without error, writes zero bytes to the destination,
increments the skipped counter by exactly one, and leaves the copied
counters unchanged. -/
theorem copyFile_skip_path (env : FileIOEnv) (srcInfo : FileInfo)
    (stats : CopyStats)
    (h : needsUpdate srcInfo env.dstStat = .ok false) :
    (copyFile env srcInfo stats).error = none ∧
    (copyFile env srcInfo stats).bytesWrittenToDst = 0 ∧
    (copyFile env srcInfo stats).stats.filesSkipped = stats.filesSkipped + 1 ∧
    (copyFile env srcInfo stats).stats.filesCopied = stats.filesCopied ∧
    (copyFile env srcInfo stats).stats.bytesCopied = stats.bytesCopied := by
  simp [copyFile, h]

/-- Witness for C3: identical size and modification time → the call is a
recorded skip with no write and no error. -/
theorem copyFile_skip_path_witness :
    (copyFile ⟨.found ⟨9, 4, false⟩, true, true, true, .ok 9, true, true, true⟩
        ⟨9, 4, false⟩ .init).error = none ∧
    (copyFile ⟨.found ⟨9, 4, false⟩, true, true, true, .ok 9, true, true, true⟩
        ⟨9, 4, false⟩ .init).bytesWrittenToDst = 0 ∧
    (copyFile ⟨.found ⟨9, 4, false⟩, true, true, true, .ok 9, true, true, true⟩
        ⟨9, 4, false⟩ .init).stats.filesSkipped = CopyStats.init.filesSkipped + 1 ∧
    (copyFile ⟨.found ⟨9, 4, false⟩, true, true, true, .ok 9, true, true, true⟩
        ⟨9, 4, false⟩ .init).stats.filesCopied = CopyStats.init.filesCopied ∧
    (copyFile ⟨.found ⟨9, 4, false⟩, true, true, true, .ok 9, true, true, true⟩
        ⟨9, 4, false⟩ .init).stats.bytesCopied = CopyStats.init.bytesCopied :=
  copyFile_skip_path ⟨.found ⟨9, 4, false⟩, true, true, true, .ok 9, true, true, true⟩
    ⟨9, 4, false⟩ .init (by rfl)

/-- C8 counterexample: at 5·10^5 ns (0.5 ms) of elapsed time and 10^6 bytes,
the whole-run summary speed is 2·10^9 B/s — the divisor was not floored at
0.001 s, which would have given 10^9 B/s. -/
theorem overallSpeed_not_floored :
    overallSpeed 1000000 500000 = 2000000000 ∧
    (1000000 : ℚ) / perFileElapsedSeconds 500000 = 1000000000 ∧
    overallSpeed 1000000 500000 ≠
      (1000000 : ℚ) / perFileElapsedSeconds 500000 := by
  have h1 : perFileElapsedSeconds 500000 = 1/1000 := by
    unfold perFileElapsedSeconds
    norm_num
  have h2 : overallSpeed 1000000 500000 = 2000000000 := by
    unfold overallSpeed
    norm_num
  refine ⟨h2, by rw [h1]; norm_num, by rw [h2, h1]; norm_num⟩

/-- C8 (amended): the per-file speed of `copyFile` uses an elapsed-seconds
divisor floored at 0.001 s, so that divisor is never smaller than 0.001 and
speed · divisor recovers the byte count; the whole-run speed of
`showSummary` divides by the raw elapsed seconds with no floor. -/
theorem speed_divisor_policy (b ns : Int) :
    (1/1000 : ℚ) ≤ perFileElapsedSeconds ns ∧
    perFileSpeed b ns * perFileElapsedSeconds ns = b ∧
    (ns ≠ 0 → overallSpeed b ns * ((ns : ℚ) / 1000000000) = b) := by
  have hunfold : perFileElapsedSeconds ns =
      if ((ns : ℚ) / 1000000000) < 1/1000 then 1/1000
      else ((ns : ℚ) / 1000000000) := rfl
  have hfloor : (1/1000 : ℚ) ≤ perFileElapsedSeconds ns := by
    rw [hunfold]
    split_ifs with h
    · exact le_refl _
    · exact le_of_not_lt h
  refine ⟨hfloor, ?_, ?_⟩
  · have hne : perFileElapsedSeconds ns ≠ 0 := by
      intro h0
      rw [h0] at hfloor
      norm_num at hfloor
    unfold perFileSpeed
    exact div_mul_cancel₀ _ hne
  · intro hns
    have hne : ((ns : ℚ) / 1000000000) ≠ 0 := by
      apply div_ne_zero
      · exact_mod_cast hns
      · norm_num
    unfold overallSpeed
    exact div_mul_cancel₀ _ hne

/-- Witness for C8 (amended): at 2 ns of elapsed time the overall speed
times the raw (unfloored) elapsed seconds gives back the byte count. -/
theorem speed_divisor_policy_witness :
    overallSpeed 3 2 * ((2 : ℚ) / 1000000000) = 3 :=
  (speed_divisor_policy 3 2).2.2 (by norm_num)

/-- C7: a run given two or more sources whose destination exists and is a
plain file fails with an Invalid-Arguments error before any copying: no
top-level call is issued, so no byte is written and the fresh statistics
accumulator is never touched. -/
theorem run_multi_source_file_dest (args : RunArgs) (env : RunEnv)
    (info : FileInfo)
    (hn : 2 ≤ args.sources.length)
    (hsrc : validateSources args.sources = none)
    (hdest : args.destStat = .found info)
    (hfile : info.isDir = false) :
    runModel args env = ([], some .invalidArguments) := by
  have h1 : ¬ args.sources.length < 1 := by omega
  have h2 : args.sources.length > 1 := by omega
  unfold runModel
  rw [if_neg h1, hsrc]
  have hcond : (decide (args.sources.length > 1) && destFound args.destStat &&
      !destIsDir args.destStat) = true := by
    rw [hdest]
    simp [destFound, destIsDir, hfile, h2]
  simp [hcond]

/-- Two directory sources aimed at a destination that is an existing plain
file. -/
def argsC7 : RunArgs :=
  ⟨[⟨"s1", .found ⟨1, 0, true⟩⟩, ⟨"s2", .found ⟨2, 0, true⟩⟩], "d",
    .found ⟨3, 0, false⟩, ⟨false, false⟩⟩

/-- An environment in which every I/O call succeeds. -/
def envAllOk : RunEnv := ⟨true, fun _ => false, fun _ => false⟩

/-- Witness for C7: the concrete two-source run against a plain-file
destination issues no call and returns Invalid-Arguments. -/
theorem run_multi_source_file_dest_witness :
    runModel argsC7 envAllOk = ([], some .invalidArguments) :=
  run_multi_source_file_dest argsC7 envAllOk ⟨3, 0, false⟩ (by decide)
    (by rfl) (by rfl) (by rfl)

/-- Is a top-level run event a reconciler invocation? -/
def RunEvent.isReconcile : RunEvent → Bool
  | .reconcileCall _ _ => true
  | .copyCall _ _ => false

/-- Two directory sources into an existing directory destination, with
extra-detection enabled. -/
def argsC9 : RunArgs :=
  ⟨[⟨"s1", .found ⟨1, 0, true⟩⟩, ⟨"s2", .found ⟨2, 0, true⟩⟩], "d",
    .found ⟨3, 0, true⟩, ⟨true, false⟩⟩

/-- C9 counterexample: a run with two sources and extra-detection enabled
completes without error yet never invokes the reconciler — not once per
(source, destination-target) pair as claimed. -/
theorem run_reconcile_zero_for_two_sources :
    argsC9.opts.detectExtra = true ∧
    argsC9.sources.length = 2 ∧
    (runModel argsC9 envAllOk).2 = none ∧
    ((runModel argsC9 envAllOk).1.filter RunEvent.isReconcile).length = 0 := by
  refine ⟨rfl, rfl, ?_, ?_⟩ <;> rfl

/-- The copy loop of `run` only ever emits copy calls. -/
theorem runCopyLoop_no_reconcile (copyFails : String → Bool)
    (mkdirDestOk : Bool) (destination : String)
    (singleSource isDestDir destStatErr : Bool)
    (l : List SourceArg) :
    (runCopyLoop copyFails mkdirDestOk destination singleSource isDestDir
        destStatErr l).1.filter RunEvent.isReconcile = [] := by
  induction l with
  | nil => simp [runCopyLoop]
  | cons x rest ih =>
    simp only [runCopyLoop]
    split_ifs <;> simp [RunEvent.isReconcile, ih]




/-- With two or more sources, the copy phase (and hence the whole run)
emits no reconciler invocation. -/
theorem runCopyPhase_no_reconcile_multi (args : RunArgs) (env : RunEnv)
    (a b : SourceArg) (rest : List SourceArg)
    (hs : args.sources = a :: b :: rest) :
    (runCopyPhase args env).1.filter RunEvent.isReconcile = [] := by
  unfold runCopyPhase
  rcases hc : runCopyLoop env.copyFails env.mkdirDestOk args.destination
      (args.sources.length == 1) (destIsDir args.destStat)
      (!destFound args.destStat) args.sources with ⟨tr, err⟩
  have htr : tr.filter RunEvent.isReconcile = [] := by
    have h := runCopyLoop_no_reconcile env.copyFails env.mkdirDestOk
      args.destination (args.sources.length == 1) (destIsDir args.destStat)
      (!destFound args.destStat) args.sources
    rw [hc] at h
    exact h
  cases err with
  | some e => simpa [afterCopy] using htr
  | none =>
    unfold afterCopy runExtraPhase
    rw [hs]
    simp [htr]

/-- For a single source with `detectExtra` set, the extra phase appends
exactly one reconciler invocation to the trace and fails only when the
`handleExtraFiles` call does. -/
theorem runExtraPhase_single (args : RunArgs) (env : RunEnv) (s : SourceArg)
    (tr : List RunEvent) (hs : args.sources = [s])
    (hd : args.opts.detectExtra = true) :
    runExtraPhase args env tr =
      if env.reconcileFails s.path then
        (tr ++ [.reconcileCall s.path
          (if destIsDir args.destStat then
            joinPath args.destination (baseName s.path)
          else args.destination)], some .ioAccess)
      else
        (tr ++ [.reconcileCall s.path
          (if destIsDir args.destStat then
            joinPath args.destination (baseName s.path)
          else args.destination)], none) := by
  unfold runExtraPhase
  rw [hs, hd]

/-- With a single source and `detectExtra` set, a successful copy phase
emits exactly one reconciler invocation. -/
theorem runCopyPhase_one_reconcile_single (args : RunArgs) (env : RunEnv)
    (s : SourceArg) (hs : args.sources = [s])
    (hd : args.opts.detectExtra = true)
    (hok : (runCopyPhase args env).2 = none) :
    ((runCopyPhase args env).1.filter RunEvent.isReconcile).length = 1 := by
  unfold runCopyPhase at hok ⊢
  rcases hc : runCopyLoop env.copyFails env.mkdirDestOk args.destination
      (args.sources.length == 1) (destIsDir args.destStat)
      (!destFound args.destStat) args.sources with ⟨tr, err⟩
  rw [hc] at hok
  have htr : tr.filter RunEvent.isReconcile = [] := by
    have h := runCopyLoop_no_reconcile env.copyFails env.mkdirDestOk
      args.destination (args.sources.length == 1) (destIsDir args.destStat)
      (!destFound args.destStat) args.sources
    rw [hc] at h
    exact h
  cases err with
  | some e => simp [afterCopy] at hok
  | none =>
    have hred : afterCopy args env (tr, none) = runExtraPhase args env tr :=
      rfl
    rw [hred, runExtraPhase_single args env s tr hs hd] at hok ⊢
    cases hrf : env.reconcileFails s.path
    · simp [hrf, List.filter_append, htr, RunEvent.isReconcile]
    · rw [hrf] at hok
      simp at hok

/-- C9 (amended): with extra-detection enabled, the reconciler is invoked
exactly once — on the single source and its final destination — when
exactly one source path was given and the run succeeds; with two or more
source paths it is never invoked at all. -/
theorem run_reconcile_once_iff_single_source (args : RunArgs) (env : RunEnv)
    (hd : args.opts.detectExtra = true) :
    (2 ≤ args.sources.length →
      ((runModel args env).1.filter RunEvent.isReconcile).length = 0) ∧
    (args.sources.length = 1 → (runModel args env).2 = none →
      ((runModel args env).1.filter RunEvent.isReconcile).length = 1) := by
  constructor
  · intro h2
    have h1 : ¬ args.sources.length < 1 := by omega
    obtain ⟨a, b, rest, hs⟩ : ∃ a b rest, args.sources = a :: b :: rest := by
      rcases hss : args.sources with _ | ⟨a, _ | ⟨b, rest⟩⟩
      · rw [hss] at h2; simp at h2
      · rw [hss] at h2; simp at h2
      · exact ⟨a, b, rest, rfl⟩
    unfold runModel
    rw [if_neg h1]
    cases hv : validateSources args.sources with
    | some e => simp
    | none =>
      split_ifs with hmulti
      · simp
      · rw [runCopyPhase_no_reconcile_multi args env a b rest hs]
        rfl
  · intro h1 hok
    have h1' : ¬ args.sources.length < 1 := by omega
    obtain ⟨s, hs⟩ : ∃ s, args.sources = [s] := by
      rcases hss : args.sources with _ | ⟨a, _ | ⟨b, rest⟩⟩
      · rw [hss] at h1; simp at h1
      · exact ⟨a, rfl⟩
      · rw [hss] at h1; simp at h1
    unfold runModel at hok ⊢
    rw [if_neg h1'] at hok ⊢
    revert hok
    cases hv : validateSources args.sources with
    | some e => intro hok; simp at hok
    | none =>
      split_ifs with hmulti
      · intro hok; simp at hok
      · intro hok
        exact runCopyPhase_one_reconcile_single args env s hs hd hok

/-- A single directory source into an existing directory destination, with
extra-detection enabled. -/
def argsC9single : RunArgs :=
  ⟨[⟨"s1", .found ⟨1, 0, true⟩⟩], "d", .found ⟨3, 0, true⟩, ⟨true, false⟩⟩

/-- Witness for C9 (amended): the two-source run has zero reconciler calls,
the single-source run exactly one. -/
theorem run_reconcile_once_iff_single_source_witness :
    ((runModel argsC9 envAllOk).1.filter RunEvent.isReconcile).length = 0 ∧
    ((runModel argsC9single envAllOk).1.filter RunEvent.isReconcile).length
      = 1 :=
  ⟨(run_reconcile_once_iff_single_source argsC9 envAllOk rfl).1 (by decide),
   (run_reconcile_once_iff_single_source argsC9single envAllOk rfl).2
     (by decide) (by rfl)⟩

/-- Every event emitted while synchronizing the children of a directory at
destination path `p` touches a path strictly longer than `p` (the child's
own path or deeper). -/
theorem copyRecTraceList_path_long (fails : RelPath → Bool) :
    ∀ (cs : List (String × FSTree)) (p : RelPath),
      ∀ e ∈ (copyRecTraceList fails cs p).1, p.length + 1 ≤ e.path.length
  | [], p => by
    intro e he
    simp [copyRecTraceList] at he
  | (n, .file s m) :: rest, p => by
    intro e he
    rw [copyRecTraceList] at he
    simp only [copyRecTrace] at he
    by_cases hf : fails (p ++ [n])
    · simp [hf] at he
      subst he
      simp [SyncEvent.path]
    · simp [hf] at he
      rcases he with he | he
      · subst he
        simp [SyncEvent.path]
      · have := copyRecTraceList_path_long fails rest p e he
        omega
  | (n, .dir m cs') :: rest, p => by
    intro e he
    rw [copyRecTraceList] at he
    have hinner : ∀ e ∈ (copyRecTraceList fails cs' (p ++ [n])).1,
        p.length + 1 ≤ e.path.length := by
      intro e' he'
      have := copyRecTraceList_path_long fails cs' (p ++ [n]) e' he'
      simp at this
      omega
    simp only [copyRecTrace] at he
    by_cases hok : (copyRecTraceList fails cs' (p ++ [n])).2
    · simp only [hok, if_true] at he
      simp at he
      rcases he with he | he | he | he
      · subst he
        simp [SyncEvent.path]
      · exact hinner e he
      · subst he
        simp [SyncEvent.path]
      · have := copyRecTraceList_path_long fails rest p e he
        omega
    · simp only [hok, if_false] at he
      simp at he
      rcases he with he | he
      · subst he
        simp [SyncEvent.path]
      · exact hinner e he

/-- C4: `copyDirectory` sets the destination directory's own modification
time — via the sanitizer, to the sanitized source time — only after all of
the directory's children have been recursively synchronized: whenever its
trace contains a `Chtimes` event on the directory itself, that trace is the
`MkdirAll`, then every event of the children's synchronization, then the
`Chtimes` as the very last event, which in particular never occurs among or
before the children's events (and on a child failure it never occurs at
all). -/
theorem copyDirectory_chtimes_after_children (fails : RelPath → Bool)
    (m : Int) (cs : List (String × FSTree)) (dst : RelPath) (tm : Int)
    (hmem : SyncEvent.chtimesDir dst tm ∈
      (copyRecTrace fails (.dir m cs) dst).1) :
    tm = sanitizeFATTime m ∧
    (copyRecTraceList fails cs dst).2 = true ∧
    (copyRecTrace fails (.dir m cs) dst).1 =
      SyncEvent.mkdirDir dst :: (copyRecTraceList fails cs dst).1 ++
        [SyncEvent.chtimesDir dst (sanitizeFATTime m)] ∧
    SyncEvent.chtimesDir dst tm ∉ (copyRecTraceList fails cs dst).1 := by
  have hnot : SyncEvent.chtimesDir dst tm ∉
      (copyRecTraceList fails cs dst).1 := by
    intro hin
    have h := copyRecTraceList_path_long fails cs dst _ hin
    simp [SyncEvent.path] at h
  cases hok : (copyRecTraceList fails cs dst).2 with
  | false =>
    rw [copyRecTrace] at hmem
    simp only [hok] at hmem
    simp at hmem
    exact absurd hmem hnot
  | true =>
    rw [copyRecTrace] at hmem
    simp only [hok] at hmem
    simp at hmem
    rcases hmem with hmem | hmem
    · exact absurd hmem hnot
    · refine ⟨hmem, rfl, ?_, hnot⟩
      rw [copyRecTrace]
      simp [hok]

/-- Witness for C4: a directory with one file child; the trace is the mkdir,
the child's copy, then the sanitized chtimes last. -/
theorem copyDirectory_chtimes_after_children_witness :
    sanitizeFATTime 7 = sanitizeFATTime 7 ∧
    (copyRecTraceList (fun _ => false) [("a", .file 1 2)] ["d"]).2 = true ∧
    (copyRecTrace (fun _ => false)
        (.dir 7 [("a", .file 1 2)]) ["d"]).1 =
      SyncEvent.mkdirDir ["d"] ::
        (copyRecTraceList (fun _ => false) [("a", .file 1 2)] ["d"]).1 ++
        [SyncEvent.chtimesDir ["d"] (sanitizeFATTime 7)] ∧
    SyncEvent.chtimesDir ["d"] (sanitizeFATTime 7) ∉
      (copyRecTraceList (fun _ => false) [("a", .file 1 2)] ["d"]).1 :=
  copyDirectory_chtimes_after_children (fun _ => false) 7
    [("a", .file 1 2)] ["d"] (sanitizeFATTime 7) (by decide)

/-- Membership characterization for the relative paths below a directory
listing: `p` is a sub-path iff it starts with the name of a listed entry and
continues (possibly emptily) inside that entry's subtree. -/
theorem mem_subPathsList (cs : List (String × FSTree)) (p : RelPath) :
    p ∈ subPathsList cs ↔
      ∃ n q t, p = n :: q ∧ (n, t) ∈ cs ∧ (q = [] ∨ q ∈ subPaths t) := by
  induction cs with
  | nil => simp [subPathsList]
  | cons nt rest ih =>
    obtain ⟨n, t⟩ := nt
    rw [subPathsList]
    constructor
    · intro hp
      rcases List.mem_append.mp hp with hp | hp
      · rcases List.mem_cons.mp hp with hp | hp
        · exact ⟨n, [], t, hp, List.mem_cons_self _ _, Or.inl rfl⟩
        · obtain ⟨q, hq, rfl⟩ := List.mem_map.mp hp
          exact ⟨n, q, t, rfl, List.mem_cons_self _ _, Or.inr hq⟩
      · obtain ⟨n', q, t', hpe, hmem, hq⟩ := ih.mp hp
        exact ⟨n', q, t', hpe, List.mem_cons_of_mem _ hmem, hq⟩
    · rintro ⟨n', q, t', rfl, hmem, hq⟩
      rcases List.mem_cons.mp hmem with heq | hmem
      · injection heq with h1 h2
        subst h1
        subst h2
        rcases hq with rfl | hq
        · exact List.mem_append_left _ (List.mem_cons_self _ _)
        · exact List.mem_append_left _
            (List.mem_cons_of_mem _ (List.mem_map.mpr ⟨q, hq, rfl⟩))
      · exact List.mem_append_right _ (ih.mpr ⟨n', q, t', rfl, hmem, hq⟩)

/-- The sub-path set of a directory listing is closed under nonempty
prefixes: every ancestor (within the tree) of a present path is present. -/
theorem prefix_mem_subPathsList :
    ∀ (cs : List (String × FSTree)) (p : RelPath), p ∈ subPathsList cs →
      ∀ q, q <+: p → q ≠ [] → q ∈ subPathsList cs
  | [], p, hp, q, hqp, hne => by simp [subPathsList] at hp
  | (n, t) :: rest, p, hp, q, hqp, hne => by
    rw [subPathsList] at hp ⊢
    rcases List.mem_append.mp hp with hp | hp
    · rcases List.mem_cons.mp hp with hp | hp
      · subst hp
        have hq1 : q = [n] := by
          rcases q with _ | ⟨a, qt⟩
          · exact absurd rfl hne
          · rw [List.cons_prefix_cons] at hqp
            obtain ⟨rfl, ht⟩ := hqp
            simp [List.prefix_nil.mp ht]
        subst hq1
        exact List.mem_append_left _ (List.mem_cons_self _ _)
      · obtain ⟨q', hq', rfl⟩ := List.mem_map.mp hp
        rcases q with _ | ⟨a, qt⟩
        · exact absurd rfl hne
        · rw [List.cons_prefix_cons] at hqp
          obtain ⟨rfl, ht⟩ := hqp
          by_cases hqt : qt = []
          · subst hqt
            exact List.mem_append_left _ (List.mem_cons_self _ _)
          · cases t with
            | file s m => simp [subPaths] at hq'
            | dir m cs' =>
              rw [subPaths] at hq'
              have hrec := prefix_mem_subPathsList cs' q' hq' qt ht hqt
              exact List.mem_append_left _ (List.mem_cons_of_mem _
                (List.mem_map.mpr ⟨qt, by rw [subPaths]; exact hrec, rfl⟩))
    · exact List.mem_append_right _
        (prefix_mem_subPathsList rest p hp q hqp hne)

/-- The relative paths `handleExtraFiles` reports as extra while walking the
destination entries `cs` at relative prefix `pre`: the extra files' paths
followed by the extra directories. -/
def walkReported (srcSet : List RelPath) (pre : RelPath)
    (cs : List (String × FSTree)) : List RelPath :=
  (walkExtraList srcSet pre cs).1.map Prod.fst ++
    (walkExtraList srcSet pre cs).2

/-- `pre ++ q` is a minimal extra below `pre`: absent from the source set
while every proper nonempty ancestor of `q` below `pre` is present in it. -/
def IsMinExtraAt (srcSet : List RelPath) (pre q : RelPath) : Prop :=
  pre ++ q ∉ srcSet ∧
    ∀ q', q' ≠ [] → q' <+: q → q' ≠ q → pre ++ q' ∈ srcSet

/-- Walk equation: entry in the source set, destination entry a directory —
descend. -/
theorem walkExtraList_cons_inSrc_dir {srcSet : List RelPath} {pre : RelPath}
    {n : String} (m : Int) (cs' : List (String × FSTree))
    (rest : List (String × FSTree))
    (h : srcSet.contains (pre ++ [n]) = true) :
    walkExtraList srcSet pre ((n, .dir m cs') :: rest) =
      ((walkExtraList srcSet (pre ++ [n]) cs').1 ++
          (walkExtraList srcSet pre rest).1,
        (walkExtraList srcSet (pre ++ [n]) cs').2 ++
          (walkExtraList srcSet pre rest).2) := by
  have h' : pre ++ [n] ∈ srcSet := by simpa using h
  rw [walkExtraList, walkExtraEntry]
  simp [h']

/-- Walk equation: entry in the source set, destination entry a file — skip. -/
theorem walkExtraList_cons_inSrc_file {srcSet : List RelPath} {pre : RelPath}
    {n : String} (sz tms : Int) (rest : List (String × FSTree))
    (h : srcSet.contains (pre ++ [n]) = true) :
    walkExtraList srcSet pre ((n, .file sz tms) :: rest) =
      walkExtraList srcSet pre rest := by
  have h' : pre ++ [n] ∈ srcSet := by simpa using h
  rw [walkExtraList, walkExtraEntry]
  simp [h']

/-- Walk equation: entry absent from the source set, destination entry a
directory — record it as an extra directory, do not descend. -/
theorem walkExtraList_cons_extra_dir {srcSet : List RelPath} {pre : RelPath}
    {n : String} (m : Int) (cs' : List (String × FSTree))
    (rest : List (String × FSTree))
    (h : ¬ srcSet.contains (pre ++ [n]) = true) :
    walkExtraList srcSet pre ((n, .dir m cs') :: rest) =
      ((walkExtraList srcSet pre rest).1,
        (pre ++ [n]) :: (walkExtraList srcSet pre rest).2) := by
  have h' : pre ++ [n] ∉ srcSet := by simpa using h
  rw [walkExtraList, walkExtraEntry]
  simp [h']

/-- Walk equation: entry absent from the source set, destination entry a
file — record it as an extra file with its size. -/
theorem walkExtraList_cons_extra_file {srcSet : List RelPath} {pre : RelPath}
    {n : String} (sz tms : Int) (rest : List (String × FSTree))
    (h : ¬ srcSet.contains (pre ++ [n]) = true) :
    walkExtraList srcSet pre ((n, .file sz tms) :: rest) =
      ((pre ++ [n], sz) :: (walkExtraList srcSet pre rest).1,
        (walkExtraList srcSet pre rest).2) := by
  have h' : pre ++ [n] ∉ srcSet := by simpa using h
  rw [walkExtraList, walkExtraEntry]
  simp [h']

/-- A one-component path below an absent entry is a minimal extra. -/
theorem isMinExtraAt_single {srcSet : List RelPath} {pre : RelPath}
    {n : String} (hr : pre ++ [n] ∉ srcSet) :
    IsMinExtraAt srcSet pre [n] := by
  refine ⟨hr, ?_⟩
  intro q' hne hpre hneq
  rcases q' with _ | ⟨a, qt⟩
  · exact absurd rfl hne
  · rw [List.cons_prefix_cons] at hpre
    obtain ⟨rfl, ht⟩ := hpre
    exact absurd (by simp [List.prefix_nil.mp ht]) hneq

/-- No deeper path below an absent entry is a minimal extra. -/
theorem not_isMinExtraAt_cons {srcSet : List RelPath} {pre : RelPath}
    {n : String} {q : RelPath} (hr : pre ++ [n] ∉ srcSet) (hq : q ≠ []) :
    ¬ IsMinExtraAt srcSet pre (n :: q) := by
  rintro ⟨-, hanc⟩
  exact hr (hanc [n] (by simp) ⟨q, rfl⟩ (by simp [hq]))

/-- Below an entry that is present in the source set, minimal extras of the
subtree correspond to minimal extras one level up. -/
theorem isMinExtraAt_cons_iff {srcSet : List RelPath} {pre : RelPath}
    {n : String} {q : RelPath} (hr : pre ++ [n] ∈ srcSet) (hq : q ≠ []) :
    IsMinExtraAt srcSet pre (n :: q) ↔
      IsMinExtraAt srcSet (pre ++ [n]) q := by
  have happ : ∀ q' : RelPath, pre ++ n :: q' = (pre ++ [n]) ++ q' := by
    intro q'
    simp
  constructor
  · rintro ⟨habs, hanc⟩
    refine ⟨by rw [← happ]; exact habs, ?_⟩
    intro q' hne hpre hneq
    rw [← happ]
    exact hanc (n :: q') (by simp) (List.cons_prefix_cons.mpr ⟨rfl, hpre⟩)
      (by simp [hneq])
  · rintro ⟨habs, hanc⟩
    refine ⟨by rw [happ]; exact habs, ?_⟩
    intro q' hne hpre hneq
    rcases q' with _ | ⟨a, qt⟩
    · exact absurd rfl hne
    · rw [List.cons_prefix_cons] at hpre
      obtain ⟨rfl, ht⟩ := hpre
      by_cases hqt : qt = []
      · subst hqt
        simpa using hr
      · rw [happ]
        exact hanc qt hqt ht (by intro h; exact hneq (by rw [h]))

/-- Sub-paths are nonempty. -/
theorem subPathsList_mem_ne_nil {cs : List (String × FSTree)} {p : RelPath}
    (h : p ∈ subPathsList cs) : p ≠ [] := by
  obtain ⟨n, q, t, rfl, -, -⟩ := (mem_subPathsList cs p).mp h
  simp

/-- Unfolding equation for `subPaths` on a directory. -/
theorem subPaths_dir (m : Int) (cs : List (String × FSTree)) :
    subPaths (.dir m cs) = subPathsList cs := by
  rw [subPaths]

/-- Characterization of the walk of `handleExtraFiles`: a path is reported
as extra (file or directory) iff it is a destination sub-path, absent from
the source set, and all of its proper ancestors are present in the source
set — i.e. iff it is a minimal element of the destination-minus-source
difference under the ancestor order. -/
theorem mem_walkReported (srcSet : List RelPath) :
    ∀ (cs : List (String × FSTree)) (pre p : RelPath),
      p ∈ walkReported srcSet pre cs ↔
        ∃ q, q ∈ subPathsList cs ∧ p = pre ++ q ∧ IsMinExtraAt srcSet pre q
  | [], pre, p => by
    simp [walkReported, walkExtraList, subPathsList]
  | (n, t) :: rest, pre, p => by
    have htail := mem_walkReported srcSet rest pre p
    rw [walkReported] at htail
    by_cases hr : srcSet.contains (pre ++ [n]) = true
    · have hrm : pre ++ [n] ∈ srcSet := by simpa using hr
      cases t with
      | file sz tms =>
        rw [walkReported, walkExtraList_cons_inSrc_file sz tms rest hr]
        rw [htail]
        constructor
        · rintro ⟨q, hq, rfl, hmin⟩
          exact ⟨q, by rw [subPathsList]; exact List.mem_append_right _ hq,
            rfl, hmin⟩
        · rintro ⟨q, hq, rfl, hmin⟩
          rw [subPathsList] at hq
          rcases List.mem_append.mp hq with hq | hq
          · rcases List.mem_cons.mp hq with rfl | hq
            · exact absurd hrm hmin.1
            · obtain ⟨q', hq', rfl⟩ := List.mem_map.mp hq
              simp [subPaths] at hq'
          · exact ⟨q, hq, rfl, hmin⟩
      | dir m cs' =>
        have hhead := mem_walkReported srcSet cs' (pre ++ [n]) p
        rw [walkReported] at hhead
        rw [walkReported, walkExtraList_cons_inSrc_dir m cs' rest hr]
        simp only [List.map_append, List.mem_append]
        simp only [List.mem_append] at htail hhead
        constructor
        · intro h
          have h' : (p ∈ ((walkExtraList srcSet (pre ++ [n]) cs').1.map
                Prod.fst) ∨ p ∈ (walkExtraList srcSet (pre ++ [n]) cs').2) ∨
              (p ∈ ((walkExtraList srcSet pre rest).1.map Prod.fst) ∨
                p ∈ (walkExtraList srcSet pre rest).2) := by tauto
          rcases h' with h' | h'
          · obtain ⟨q'', hq'', rfl, hmin⟩ := hhead.mp h'
            have hne : q'' ≠ [] := subPathsList_mem_ne_nil hq''
            refine ⟨n :: q'', ?_, ?_, ?_⟩
            · rw [subPathsList]
              exact List.mem_append_left _ (List.mem_cons_of_mem _
                (List.mem_map.mpr ⟨q'', by rw [subPaths_dir]; exact hq'',
                  rfl⟩))
            · simp
            · exact (isMinExtraAt_cons_iff hrm hne).mpr hmin
          · obtain ⟨q, hq, rfl, hmin⟩ := htail.mp h'
            exact ⟨q, by rw [subPathsList]; exact List.mem_append_right _ hq,
              rfl, hmin⟩
        · rintro ⟨q, hq, rfl, hmin⟩
          rw [subPathsList] at hq
          rcases List.mem_append.mp hq with hq | hq
          · rcases List.mem_cons.mp hq with rfl | hq
            · exact absurd hrm hmin.1
            · obtain ⟨q'', hq'', rfl⟩ := List.mem_map.mp hq
              rw [subPaths_dir] at hq''
              have hne : q'' ≠ [] := subPathsList_mem_ne_nil hq''
              have hmin' := (isMinExtraAt_cons_iff hrm hne).mp hmin
              have hin := hhead.mpr ⟨q'', hq'', List.append_cons pre n q'',
                hmin'⟩
              tauto
          · have hin := htail.mpr ⟨q, hq, rfl, hmin⟩
            tauto
    · have hrm : pre ++ [n] ∉ srcSet := by simpa using hr
      cases t with
      | file sz tms =>
        have hn_mem : ([n] : RelPath) ∈
            subPathsList ((n, FSTree.file sz tms) :: rest) := by
          rw [subPathsList]
          exact List.mem_append_left _ (List.mem_cons_self _ _)
        rw [walkReported, walkExtraList_cons_extra_file sz tms rest hr]
        simp only [List.map_cons, List.mem_append, List.mem_cons]
        simp only [List.mem_append] at htail
        constructor
        · intro h
          rcases h with (h | h) | h
          · exact ⟨[n], hn_mem, h, isMinExtraAt_single hrm⟩
          · obtain ⟨q, hq, rfl, hmin⟩ := htail.mp (Or.inl h)
            refine ⟨q, ?_, rfl, hmin⟩
            rw [subPathsList]
            exact List.mem_append_right _ hq
          · obtain ⟨q, hq, rfl, hmin⟩ := htail.mp (Or.inr h)
            refine ⟨q, ?_, rfl, hmin⟩
            rw [subPathsList]
            exact List.mem_append_right _ hq
        · rintro ⟨q, hq, rfl, hmin⟩
          rw [subPathsList] at hq
          rcases List.mem_append.mp hq with hq | hq
          · rcases List.mem_cons.mp hq with rfl | hq
            · exact Or.inl (Or.inl rfl)
            · obtain ⟨q', hq', rfl⟩ := List.mem_map.mp hq
              simp [subPaths] at hq'
          · have hin := htail.mpr ⟨q, hq, rfl, hmin⟩
            tauto
      | dir m cs' =>
        have hn_mem : ([n] : RelPath) ∈
            subPathsList ((n, FSTree.dir m cs') :: rest) := by
          rw [subPathsList]
          exact List.mem_append_left _ (List.mem_cons_self _ _)
        rw [walkReported, walkExtraList_cons_extra_dir m cs' rest hr]
        simp only [List.mem_append, List.mem_cons]
        simp only [List.mem_append] at htail
        constructor
        · intro h
          rcases h with h | h | h
          · obtain ⟨q, hq, rfl, hmin⟩ := htail.mp (Or.inl h)
            refine ⟨q, ?_, rfl, hmin⟩
            rw [subPathsList]
            exact List.mem_append_right _ hq
          · exact ⟨[n], hn_mem, h, isMinExtraAt_single hrm⟩
          · obtain ⟨q, hq, rfl, hmin⟩ := htail.mp (Or.inr h)
            refine ⟨q, ?_, rfl, hmin⟩
            rw [subPathsList]
            exact List.mem_append_right _ hq
        · rintro ⟨q, hq, rfl, hmin⟩
          rw [subPathsList] at hq
          rcases List.mem_append.mp hq with hq | hq
          · rcases List.mem_cons.mp hq with rfl | hq
            · exact Or.inr (Or.inl rfl)
            · obtain ⟨q'', hq'', rfl⟩ := List.mem_map.mp hq
              rw [subPaths_dir] at hq''
              have hne : q'' ≠ [] := subPathsList_mem_ne_nil hq''
              exact absurd hmin (not_isMinExtraAt_cons hrm hne)
          · have hin := htail.mpr ⟨q, hq, rfl, hmin⟩
            tauto

/-- `namesUnique` is exactly `Nodup`. -/
theorem namesUnique_iff_nodup (l : List String) :
    namesUnique l = true ↔ l.Nodup := by
  induction l with
  | nil => simp [namesUnique]
  | cons n ns ih => simp [namesUnique, ih, List.nodup_cons]

/-- Removing a path drops at most one entry from a listing's names. -/
theorem removeInList_names_sublist :
    ∀ (cs : List (String × FSTree)) (n : String) (r : RelPath),
      ((removeInList cs n r).map Prod.fst).Sublist (cs.map Prod.fst)
  | [], n, r => by simp [removeInList]
  | (n', t') :: cs', n, r => by
    simp only [removeInList]
    by_cases h : n' = n
    · subst h
      simp only [if_pos rfl]
      cases r with
      | nil => exact (List.sublist_cons_self _ _)
      | cons r1 rs => simp
    · simp only [if_neg h, List.map_cons]
      exact (removeInList_names_sublist cs' n r).cons₂ n'

mutual

/-- Removal never adds a path: the tree after `removePath` has a subset of
the original sub-paths. -/
theorem subPaths_removePath_subset :
    ∀ (t : FSTree) (r : RelPath) (p : RelPath),
      p ∈ subPaths (removePath t r) → p ∈ subPaths t
  | t, [], p => by rw [removePath]; exact id
  | .file s m, _ :: _, p => by rw [removePath]; exact id
  | .dir m cs, n :: rest, p => by
    rw [removePath, subPaths_dir, subPaths_dir]
    exact subPaths_removeInList_subset cs n rest p

/-- List-level version of `subPaths_removePath_subset`. -/
theorem subPaths_removeInList_subset :
    ∀ (cs : List (String × FSTree)) (n : String) (r : RelPath) (p : RelPath),
      p ∈ subPathsList (removeInList cs n r) → p ∈ subPathsList cs
  | [], n, r, p => by rw [removeInList]; exact id
  | (n', t') :: cs', n, r, p => by
    simp only [removeInList]
    by_cases h : n' = n
    · subst h
      simp only [if_pos rfl]
      cases r with
      | nil =>
        intro hp
        rw [subPathsList]
        exact List.mem_append_right _ hp
      | cons r1 rs =>
        intro hp
        have hp' : p ∈ subPathsList ((n', removePath t' (r1 :: rs)) :: cs') :=
          hp
        rw [subPathsList] at hp'
        rw [subPathsList]
        rcases List.mem_append.mp hp' with hp | hp
        · rcases List.mem_cons.mp hp with rfl | hp
          · exact List.mem_append_left _ (List.mem_cons_self _ _)
          · obtain ⟨q, hq, rfl⟩ := List.mem_map.mp hp
            exact List.mem_append_left _ (List.mem_cons_of_mem _
              (List.mem_map.mpr ⟨q,
                subPaths_removePath_subset t' (r1 :: rs) q hq, rfl⟩))
        · exact List.mem_append_right _ hp
    · simp only [if_neg h]
      intro hp
      rw [subPathsList] at hp ⊢
      rcases List.mem_append.mp hp with hp | hp
      · exact List.mem_append_left _ hp
      · exact List.mem_append_right _
          (subPaths_removeInList_subset cs' n r p hp)

end

mutual

/-- Removal preserves well-formedness. -/
theorem wfTree_removePath :
    ∀ (t : FSTree) (r : RelPath), wfTree t = true →
      wfTree (removePath t r) = true
  | t, [], h => by rwa [removePath]
  | .file s m, _ :: _, h => by rwa [removePath]
  | .dir m cs, n :: rest, h => by
    rw [removePath, wfTree]
    rw [wfTree] at h
    simp only [Bool.and_eq_true] at h ⊢
    refine ⟨?_, wfList_removeInList cs n rest h.2⟩
    rw [namesUnique_iff_nodup] at h ⊢
    exact h.1.sublist (removeInList_names_sublist cs n rest)

/-- List-level version of `wfTree_removePath`. -/
theorem wfList_removeInList :
    ∀ (cs : List (String × FSTree)) (n : String) (r : RelPath),
      wfList cs = true → wfList (removeInList cs n r) = true
  | [], n, r, h => by rwa [removeInList]
  | (n', t') :: cs', n, r, h => by
    rw [wfList] at h
    simp only [Bool.and_eq_true] at h
    simp only [removeInList]
    by_cases hn : n' = n
    · subst hn
      simp only [if_pos rfl]
      cases r with
      | nil => exact h.2
      | cons r1 rs =>
        show wfList ((n', removePath t' (r1 :: rs)) :: cs') = true
        rw [wfList]
        simp only [Bool.and_eq_true]
        exact ⟨wfTree_removePath t' (r1 :: rs) h.1, h.2⟩
    · simp only [if_neg hn]
      rw [wfList]
      simp only [Bool.and_eq_true]
      exact ⟨h.1, wfList_removeInList cs' n r h.2⟩

end

mutual

/-- Removing the entry at nonempty path `r` from a well-formed tree removes
the whole subtree at `r`: no path extending `r` survives. -/
theorem removePath_kills :
    ∀ (t : FSTree) (r p : RelPath), wfTree t = true → r ≠ [] →
      r <+: p → p ∉ subPaths (removePath t r)
  | .file s m, r, p, hwf, hr, hpre => by
    cases r with
    | nil => exact absurd rfl hr
    | cons r1 rs =>
      rw [removePath]
      simp [subPaths]
  | .dir m cs, r, p, hwf, hr, hpre => by
    cases r with
    | nil => exact absurd rfl hr
    | cons n rest =>
      rw [removePath, subPaths_dir]
      rw [wfTree] at hwf
      simp only [Bool.and_eq_true] at hwf
      exact removeInList_kills cs n rest p hwf.1 hwf.2 hpre

/-- List-level version of `removePath_kills`. -/
theorem removeInList_kills :
    ∀ (cs : List (String × FSTree)) (n : String) (rest p : RelPath),
      namesUnique (cs.map Prod.fst) = true → wfList cs = true →
      (n :: rest) <+: p → p ∉ subPathsList (removeInList cs n rest)
  | [], n, rest, p, hnu, hwf, hpre => by
    simp [removeInList, subPathsList]
  | (n', t') :: cs', n, rest, p, hnu, hwf, hpre => by
    obtain ⟨p'', rfl, hpre''⟩ : ∃ p'', p = n :: p'' ∧ rest <+: p'' := by
      rcases p with _ | ⟨a, pt⟩
      · have hl := hpre.length_le
        simp at hl
      · rw [List.cons_prefix_cons] at hpre
        exact ⟨pt, by rw [hpre.1], hpre.2⟩
    rw [wfList] at hwf
    simp only [Bool.and_eq_true] at hwf
    have hnu' := hnu
    rw [List.map_cons, namesUnique] at hnu'
    simp only [Bool.and_eq_true, Bool.not_eq_true'] at hnu'
    simp only [removeInList]
    by_cases h : n' = n
    · subst h
      simp only [if_pos rfl]
      have hnotin : ∀ t'', (n', t'') ∉ cs' := by
        intro t'' hmem
        have hname : n' ∈ cs'.map Prod.fst :=
          List.mem_map.mpr ⟨(n', t''), hmem, rfl⟩
        have hc : n' ∉ cs'.map Prod.fst := by simpa using hnu'.1
        exact hc hname
      cases rest with
      | nil =>
        intro hp
        obtain ⟨a, q, t'', heq, hmem, hq⟩ := (mem_subPathsList cs' _).mp hp
        injection heq with h1 h2
        subst h1
        exact hnotin t'' hmem
      | cons r1 rs =>
        intro hp
        have hp' : n' :: p'' ∈
            subPathsList ((n', removePath t' (r1 :: rs)) :: cs') := hp
        rw [subPathsList] at hp'
        rcases List.mem_append.mp hp' with hp' | hp'
        · rcases List.mem_cons.mp hp' with heq | hp'
          · injection heq with h1 h2
            subst h2
            have hl := hpre''.length_le
            simp at hl
          · obtain ⟨q, hq, heq⟩ := List.mem_map.mp hp'
            injection heq with h1 h2
            subst h2
            exact removePath_kills t' (r1 :: rs) q hwf.1 (by simp) hpre'' hq
        · obtain ⟨a, q, t'', heq, hmem, hq2⟩ :=
            (mem_subPathsList cs' _).mp hp'
          injection heq with h1 h2
          subst h1
          exact hnotin t'' hmem
    · simp only [if_neg h]
      intro hp
      rw [subPathsList] at hp
      rcases List.mem_append.mp hp with hp | hp
      · rcases List.mem_cons.mp hp with heq | hp
        · injection heq with h1 h2
          exact h h1.symm
        · obtain ⟨q, hq, heq⟩ := List.mem_map.mp hp
          injection heq with h1 h2
          exact h h1
      · exact removeInList_kills cs' n rest (n :: p'') hnu'.2 hwf.2
          (List.cons_prefix_cons.mpr ⟨rfl, hpre''⟩) hp

end

/-- The file-deletion loop only removes: its output tree's sub-paths are a
subset of the input's. -/
theorem deleteFilesRun_subPaths_subset (delFails : RelPath → Bool) :
    ∀ (l : List (RelPath × Int)) (t : FSTree) (p : RelPath),
      p ∈ subPaths (deleteFilesRun delFails l t).2.1 → p ∈ subPaths t
  | [], t, p => by rw [deleteFilesRun]; exact id
  | (x, sz) :: rest, t, p => by
    rw [deleteFilesRun]
    by_cases hf : delFails x
    · simp only [if_pos hf]
      exact deleteFilesRun_subPaths_subset delFails rest t p
    · simp only [if_neg hf]
      intro hp
      exact subPaths_removePath_subset t x p
        (deleteFilesRun_subPaths_subset delFails rest (removePath t x) p hp)

/-- The directory-deletion loop only removes. -/
theorem deleteDirsRun_subPaths_subset (delFails : RelPath → Bool) :
    ∀ (l : List RelPath) (t : FSTree) (p : RelPath),
      p ∈ subPaths (deleteDirsRun delFails l t).2.1 → p ∈ subPaths t
  | [], t, p => by rw [deleteDirsRun]; exact id
  | x :: rest, t, p => by
    rw [deleteDirsRun]
    by_cases hf : delFails x
    · simp only [if_pos hf]
      exact deleteDirsRun_subPaths_subset delFails rest t p
    · simp only [if_neg hf]
      intro hp
      exact subPaths_removePath_subset t x p
        (deleteDirsRun_subPaths_subset delFails rest (removePath t x) p hp)

/-- The file-deletion loop preserves well-formedness. -/
theorem deleteFilesRun_wf (delFails : RelPath → Bool) :
    ∀ (l : List (RelPath × Int)) (t : FSTree), wfTree t = true →
      wfTree (deleteFilesRun delFails l t).2.1 = true
  | [], t, hwf => by rw [deleteFilesRun]; exact hwf
  | (x, sz) :: rest, t, hwf => by
    rw [deleteFilesRun]
    by_cases hf : delFails x
    · simp only [if_pos hf]
      exact deleteFilesRun_wf delFails rest t hwf
    · simp only [if_neg hf]
      exact deleteFilesRun_wf delFails rest (removePath t x)
        (wfTree_removePath t x hwf)

/-- After the file-deletion loop, no path at or below a successfully
deleted extra file remains. -/
theorem deleteFilesRun_kills (delFails : RelPath → Bool) :
    ∀ (l : List (RelPath × Int)) (t : FSTree) (r p : RelPath),
      wfTree t = true → r ≠ [] → delFails r = false →
      r ∈ l.map Prod.fst → r <+: p →
      p ∉ subPaths (deleteFilesRun delFails l t).2.1
  | [], t, r, p, hwf, hr, hdf, hmem, hpre => by simp at hmem
  | (x, sz) :: rest, t, r, p, hwf, hr, hdf, hmem, hpre => by
    rw [deleteFilesRun]
    by_cases hx : x = r
    · subst hx
      simp only [hdf, Bool.false_eq_true, if_false]
      intro hp
      exact removePath_kills t x p hwf hr hpre
        (deleteFilesRun_subPaths_subset delFails rest (removePath t x) p hp)
    · have hmem' : r ∈ rest.map Prod.fst := by
        simp only [List.map_cons, List.mem_cons] at hmem
        rcases hmem with rfl | hmem
        · exact absurd rfl hx
        · exact hmem
      by_cases hf : delFails x
      · simp only [if_pos hf]
        exact deleteFilesRun_kills delFails rest t r p hwf hr hdf hmem' hpre
      · simp only [if_neg hf]
        exact deleteFilesRun_kills delFails rest (removePath t x) r p
          (wfTree_removePath t x hwf) hr hdf hmem' hpre

/-- After the directory-deletion loop, no path at or below a successfully
deleted extra directory remains. -/
theorem deleteDirsRun_kills (delFails : RelPath → Bool) :
    ∀ (l : List RelPath) (t : FSTree) (r p : RelPath),
      wfTree t = true → r ≠ [] → delFails r = false →
      r ∈ l → r <+: p →
      p ∉ subPaths (deleteDirsRun delFails l t).2.1
  | [], t, r, p, hwf, hr, hdf, hmem, hpre => by simp at hmem
  | x :: rest, t, r, p, hwf, hr, hdf, hmem, hpre => by
    rw [deleteDirsRun]
    by_cases hx : x = r
    · subst hx
      simp only [hdf, Bool.false_eq_true, if_false]
      intro hp
      exact removePath_kills t x p hwf hr hpre
        (deleteDirsRun_subPaths_subset delFails rest (removePath t x) p hp)
    · have hmem' : r ∈ rest := by
        rcases List.mem_cons.mp hmem with rfl | hmem
        · exact absurd rfl hx
        · exact hmem
      by_cases hf : delFails x
      · simp only [if_pos hf]
        exact deleteDirsRun_kills delFails rest t r p hwf hr hdf hmem' hpre
      · simp only [if_neg hf]
        exact deleteDirsRun_kills delFails rest (removePath t x) r p
          (wfTree_removePath t x hwf) hr hdf hmem' hpre

/-- The file-deletion loop attempts every extra file in order, recording a
deletion event (failed ones are the warnings) for each. -/
theorem deleteFilesRun_trace (delFails : RelPath → Bool) :
    ∀ (l : List (RelPath × Int)) (t : FSTree),
      (deleteFilesRun delFails l t).1 =
        l.map (fun x => DelEvent.delFile x.1 (!delFails x.1))
  | [], t => by rw [deleteFilesRun]; rfl
  | (x, sz) :: rest, t => by
    rw [deleteFilesRun]
    by_cases hf : delFails x
    · simp only [if_pos hf, List.map_cons]
      rw [deleteFilesRun_trace delFails rest t]
      simp [hf]
    · simp only [if_neg hf, List.map_cons]
      rw [deleteFilesRun_trace delFails rest (removePath t x)]
      simp [hf]

/-- The directory-deletion loop attempts every extra directory in order. -/
theorem deleteDirsRun_trace (delFails : RelPath → Bool) :
    ∀ (l : List RelPath) (t : FSTree),
      (deleteDirsRun delFails l t).1 =
        l.map (fun x => DelEvent.delDir x (!delFails x))
  | [], t => by rw [deleteDirsRun]; rfl
  | x :: rest, t => by
    rw [deleteDirsRun]
    by_cases hf : delFails x
    · simp only [if_pos hf, List.map_cons]
      rw [deleteDirsRun_trace delFails rest t]
      simp [hf]
    · simp only [if_neg hf, List.map_cons]
      rw [deleteDirsRun_trace delFails rest (removePath t x)]
      simp [hf]

/-- The file-deletion loop increments the extra-deleted count once per
successful deletion. -/
theorem deleteFilesRun_count (delFails : RelPath → Bool) :
    ∀ (l : List (RelPath × Int)) (t : FSTree),
      (deleteFilesRun delFails l t).2.2 =
        (l.filter (fun x => !delFails x.1)).length
  | [], t => by rw [deleteFilesRun]; rfl
  | (x, sz) :: rest, t => by
    rw [deleteFilesRun]
    by_cases hf : delFails x
    · simp only [if_pos hf]
      rw [List.filter_cons]
      simp only [hf]
      exact deleteFilesRun_count delFails rest t
    · simp only [if_neg hf]
      rw [List.filter_cons]
      have hb : (!delFails x) = true := by simp [hf]
      simp only [hb, if_true, List.length_cons]
      rw [deleteFilesRun_count delFails rest (removePath t x)]

/-- The directory-deletion loop increments the extra-deleted count once per
successful deletion. -/
theorem deleteDirsRun_count (delFails : RelPath → Bool) :
    ∀ (l : List RelPath) (t : FSTree),
      (deleteDirsRun delFails l t).2.2 =
        (l.filter (fun x => !delFails x)).length
  | [], t => by rw [deleteDirsRun]; rfl
  | x :: rest, t => by
    rw [deleteDirsRun]
    by_cases hf : delFails x
    · simp only [if_pos hf]
      rw [List.filter_cons]
      simp only [hf]
      exact deleteDirsRun_count delFails rest t
    · simp only [if_neg hf]
      rw [List.filter_cons]
      have hb : (!delFails x) = true := by simp [hf]
      simp only [hb, if_true, List.length_cons]
      rw [deleteDirsRun_count delFails rest (removePath t x)]

/-- Tree-level: sub-paths are nonempty. -/
theorem subPaths_mem_ne_nil {t : FSTree} {p : RelPath}
    (h : p ∈ subPaths t) : p ≠ [] := by
  cases t with
  | file s m => simp [subPaths] at h
  | dir m cs => exact subPathsList_mem_ne_nil (by rwa [subPaths_dir] at h)

/-- Tree-level: sub-paths are closed under nonempty prefixes. -/
theorem prefix_mem_subPaths {t : FSTree} {p q : RelPath}
    (hp : p ∈ subPaths t) (hq : q <+: p) (hne : q ≠ []) :
    q ∈ subPaths t := by
  cases t with
  | file s m => simp [subPaths] at hp
  | dir m cs =>
    rw [subPaths_dir] at hp ⊢
    exact prefix_mem_subPathsList cs p hp q hq hne

/-- The outcome `handleExtraFiles` produces (it returns `.ok` on every path
once the two trees are in hand). -/
def extraOutcomeOf (src dst : FSTree) (opts : SyncOptions)
    (delFails : RelPath → Bool) (stats : CopyStats) : ExtraOutcome :=
  match handleExtraFiles src dst opts delFails stats with
  | .ok o => o
  | .error _ => ⟨[], [], stats, dst, []⟩

/-- `handleExtraFiles` never returns an error. -/
theorem handleExtraFiles_returns_ok (src dst : FSTree) (opts : SyncOptions)
    (delFails : RelPath → Bool) (stats : CopyStats) :
    handleExtraFiles src dst opts delFails stats =
      .ok (extraOutcomeOf src dst opts delFails stats) := by
  cases src with
  | file s m => rfl
  | dir sm scs =>
    unfold extraOutcomeOf handleExtraFiles
    by_cases hdel : opts.deleteExtra <;> simp [hdel]

/-- The outcome of a directory-source reconciliation with deletion: the
walk's extra files and directories, the updated counters, the tree after
deleting files first and directories second, and the deletion trace. -/
theorem extraOutcomeOf_dir_delete (sm : Int) (scs : List (String × FSTree))
    (dst : FSTree) (opts : SyncOptions) (delFails : RelPath → Bool)
    (stats : CopyStats) (hdel : opts.deleteExtra = true) :
    extraOutcomeOf (.dir sm scs) dst opts delFails stats =
      ⟨(dstWalk (subPathsList scs) dst).1,
        (dstWalk (subPathsList scs) dst).2,
        { stats with
            extraFound := stats.extraFound +
              (dstWalk (subPathsList scs) dst).1.length +
              (dstWalk (subPathsList scs) dst).2.length,
            extraBytes := stats.extraBytes +
              ((dstWalk (subPathsList scs) dst).1.map Prod.snd).sum,
            extraDeleted := stats.extraDeleted +
              ((deleteFilesRun delFails (dstWalk (subPathsList scs) dst).1
                  dst).2.2 +
                (deleteDirsRun delFails (dstWalk (subPathsList scs) dst).2
                  (deleteFilesRun delFails
                    (dstWalk (subPathsList scs) dst).1 dst).2.1).2.2) },
        (deleteDirsRun delFails (dstWalk (subPathsList scs) dst).2
          (deleteFilesRun delFails (dstWalk (subPathsList scs) dst).1
            dst).2.1).2.1,
        (deleteFilesRun delFails (dstWalk (subPathsList scs) dst).1 dst).1 ++
          (deleteDirsRun delFails (dstWalk (subPathsList scs) dst).2
            (deleteFilesRun delFails (dstWalk (subPathsList scs) dst).1
              dst).2.1).1⟩ := by
  unfold extraOutcomeOf handleExtraFiles
  simp [hdel]

/-- The outcome of a directory-source reconciliation without deletion. -/
theorem extraOutcomeOf_dir_nodelete (sm : Int)
    (scs : List (String × FSTree)) (dst : FSTree) (opts : SyncOptions)
    (delFails : RelPath → Bool) (stats : CopyStats)
    (hdel : opts.deleteExtra = false) :
    extraOutcomeOf (.dir sm scs) dst opts delFails stats =
      ⟨(dstWalk (subPathsList scs) dst).1,
        (dstWalk (subPathsList scs) dst).2,
        { stats with
            extraFound := stats.extraFound +
              (dstWalk (subPathsList scs) dst).1.length +
              (dstWalk (subPathsList scs) dst).2.length,
            extraBytes := stats.extraBytes +
              ((dstWalk (subPathsList scs) dst).1.map Prod.snd).sum },
        dst, []⟩ := by
  unfold extraOutcomeOf handleExtraFiles
  simp [hdel]

/-- Top-level characterization of the walk's reported set: a path is
reported extra iff it is under the destination root, not under the source
root, and all of its proper ancestors are under the source root. -/
theorem mem_dstWalk_reported (srcSet : List RelPath) (dst : FSTree)
    (p : RelPath) :
    (p ∈ (dstWalk srcSet dst).1.map Prod.fst ∨
        p ∈ (dstWalk srcSet dst).2) ↔
      (p ∈ subPaths dst ∧ p ∉ srcSet ∧
        ∀ q, q ≠ [] → q <+: p → q ≠ p → q ∈ srcSet) := by
  cases dst with
  | file s m => simp [dstWalk, subPaths]
  | dir m dcs =>
    have h := mem_walkReported srcSet dcs [] p
    rw [walkReported] at h
    simp only [List.mem_append] at h
    rw [show dstWalk srcSet (.dir m dcs) = walkExtraList srcSet [] dcs
      from rfl]
    rw [subPaths_dir]
    rw [h]
    constructor
    · rintro ⟨q, hq, rfl, hmin⟩
      obtain ⟨h1, h2⟩ := hmin
      simp only [List.nil_append] at h1 h2 ⊢
      exact ⟨hq, h1, fun q' hne hpre hneq => h2 q' hne hpre hneq⟩
    · rintro ⟨h1, h2, h3⟩
      refine ⟨p, h1, by simp, ?_, ?_⟩
      · simpa using h2
      · intro q' hne hpre hneq
        simpa using h3 q' hne hpre hneq

/-- Every destination path missing from the source set has an ancestor (or
is itself) that is a minimal extra: absent, with all its proper ancestors
present. -/
theorem exists_minimal_extra_ancestor (srcSet : List RelPath)
    (dst : FSTree) :
    ∀ (N : Nat) (p : RelPath), p.length ≤ N → p ∈ subPaths dst →
      p ∉ srcSet →
      ∃ r, r <+: p ∧ r ∈ subPaths dst ∧ r ∉ srcSet ∧
        ∀ q, q ≠ [] → q <+: r → q ≠ r → q ∈ srcSet := by
  intro N
  induction N with
  | zero =>
    intro p hlen hp hnotin
    have hnil : p = [] := List.length_eq_zero.mp (Nat.le_zero.mp hlen)
    exact absurd hnil (subPaths_mem_ne_nil hp)
  | succ N ih =>
    intro p hlen hp hnotin
    by_cases hall : ∀ q, q ≠ [] → q <+: p → q ≠ p → q ∈ srcSet
    · exact ⟨p, List.prefix_refl p, hp, hnotin, hall⟩
    · push_neg at hall
      obtain ⟨q, hne, hpre, hneq, hq⟩ := hall
      have hqp : q ∈ subPaths dst := prefix_mem_subPaths hp hpre hne
      have hqlen : q.length ≤ N := by
        have h1 := hpre.length_le
        have h2 : q.length ≠ p.length := fun h => hneq (hpre.eq_of_length h)
        omega
      obtain ⟨r, hr1, hr2, hr3, hr4⟩ := ih q hqlen hqp hq
      exact ⟨r, hr1.trans hpre, hr2, hr3, hr4⟩

/-- An empty source directory. -/
def srcC5 : FSTree := .dir 0 []

/-- A destination holding an extra directory `d` containing a file `x`. -/
def dstC5 : FSTree := .dir 0 [("d", .dir 0 [("x", .file 1 0)])]

/-- C5 counterexample: with detection enabled against an empty source, the
path `d/x` lies in (destination paths) minus (source paths), yet the
reconciler does not report it — it records only the top-most extra `d` and
skips the subtree, so the reported set is strictly smaller than the set
difference. -/
theorem handleExtraFiles_reported_ne_difference :
    ["d", "x"] ∈ subPaths dstC5 ∧
    ["d", "x"] ∉ subPaths srcC5 ∧
    ["d", "x"] ∉ (extraOutcomeOf srcC5 dstC5 ⟨true, false⟩ (fun _ => false)
      .init).extraFiles.map Prod.fst ∧
    ["d", "x"] ∉ (extraOutcomeOf srcC5 dstC5 ⟨true, false⟩ (fun _ => false)
      .init).extraDirs ∧
    ["d"] ∈ (extraOutcomeOf srcC5 dstC5 ⟨true, false⟩ (fun _ => false)
      .init).extraDirs := by
  refine ⟨?_, ?_, ?_, ?_, ?_⟩ <;> decide

/-- C5 (amended): with extra-detection on a directory source, the reported
extra set equals exactly the set of minimal elements of (destination
relative paths) minus (source relative paths) — those difference paths all
of whose proper ancestors exist under the source root; a path deeper inside
an extra directory is covered by its reported ancestor but not itself
reported.  With deletion enabled and every deletion succeeding, after the
run no path of the full difference set remains under the destination. -/
theorem handleExtraFiles_minimal_difference_deletion (sm : Int)
    (scs : List (String × FSTree)) (dst : FSTree) (opts : SyncOptions)
    (stats : CopyStats) (hwf : wfTree dst = true)
    (hdel : opts.deleteExtra = true) :
    (∀ p,
      (p ∈ (extraOutcomeOf (.dir sm scs) dst opts (fun _ => false)
            stats).extraFiles.map Prod.fst ∨
        p ∈ (extraOutcomeOf (.dir sm scs) dst opts (fun _ => false)
            stats).extraDirs) ↔
      (p ∈ subPaths dst ∧ p ∉ subPaths (FSTree.dir sm scs) ∧
        ∀ q, q ≠ [] → q <+: p → q ≠ p →
          q ∈ subPaths (FSTree.dir sm scs))) ∧
    (∀ p, p ∈ subPaths dst → p ∉ subPaths (FSTree.dir sm scs) →
      p ∉ subPaths (extraOutcomeOf (.dir sm scs) dst opts (fun _ => false)
        stats).dstAfter) := by
  rw [extraOutcomeOf_dir_delete sm scs dst opts (fun _ => false) stats hdel]
  rw [subPaths_dir]
  constructor
  · intro p
    exact mem_dstWalk_reported (subPathsList scs) dst p
  · intro p hp hnotin
    obtain ⟨r, hrpre, hrdst, hrnot, hrmin⟩ :=
      exists_minimal_extra_ancestor (subPathsList scs) dst p.length p
        le_rfl hp hnotin
    have hrep := (mem_dstWalk_reported (subPathsList scs) dst r).mpr
      ⟨hrdst, hrnot, hrmin⟩
    have hrne : r ≠ [] := subPaths_mem_ne_nil hrdst
    intro hfinal
    rcases hrep with hrep | hrep
    · exact deleteFilesRun_kills (fun _ => false)
        (dstWalk (subPathsList scs) dst).1 dst r p hwf hrne rfl hrep hrpre
        (deleteDirsRun_subPaths_subset (fun _ => false)
          (dstWalk (subPathsList scs) dst).2 _ p hfinal)
    · exact deleteDirsRun_kills (fun _ => false)
        (dstWalk (subPathsList scs) dst).2 _ r p
        (deleteFilesRun_wf (fun _ => false)
          (dstWalk (subPathsList scs) dst).1 dst hwf)
        hrne rfl hrep hrpre hfinal

/-- Witness for C5 (amended): at the concrete source/destination pair above
with deletion enabled, `d` is reported (its ancestors are all in the
source), `d/x` is not, and after deletion neither `d` nor `d/x` remains. -/
theorem handleExtraFiles_minimal_difference_deletion_witness :
    (((["d"] ∈ (extraOutcomeOf srcC5 dstC5 ⟨true, true⟩ (fun _ => false)
          .init).extraFiles.map Prod.fst ∨
        ["d"] ∈ (extraOutcomeOf srcC5 dstC5 ⟨true, true⟩ (fun _ => false)
          .init).extraDirs)) ↔
      (["d"] ∈ subPaths dstC5 ∧ ["d"] ∉ subPaths (FSTree.dir 0 []) ∧
        ∀ q, q ≠ [] → q <+: ["d"] → q ≠ ["d"] →
          q ∈ subPaths (FSTree.dir 0 []))) ∧
    ["d", "x"] ∉ subPaths (extraOutcomeOf srcC5 dstC5 ⟨true, true⟩
      (fun _ => false) .init).dstAfter :=
  ⟨(handleExtraFiles_minimal_difference_deletion 0 [] dstC5 ⟨true, true⟩
      .init (by decide) rfl).1 ["d"],
   (handleExtraFiles_minimal_difference_deletion 0 [] dstC5 ⟨true, true⟩
      .init (by decide) rfl).2 ["d", "x"] (by decide) (by decide)⟩

/-- A reported path that extends a reported extra directory is that
directory itself: nothing strictly inside an extra directory is ever
reported (its subtree was skipped). -/
theorem reported_prefix_eq (srcSet : List RelPath) (dst : FSTree)
    {d p : RelPath} (hd : d ∈ (dstWalk srcSet dst).2)
    (hp : p ∈ (dstWalk srcSet dst).1.map Prod.fst ∨
      p ∈ (dstWalk srcSet dst).2)
    (hpre : d <+: p) : d = p := by
  have hdchar := (mem_dstWalk_reported srcSet dst d).mp (Or.inr hd)
  have hpchar := (mem_dstWalk_reported srcSet dst p).mp hp
  by_contra hne
  have hdne : d ≠ [] := subPaths_mem_ne_nil hdchar.1
  exact hdchar.2.1 (hpchar.2.2 d hdne hpre hne)

/-- C6: with deletion enabled, the reconciler's deletion trace is every
extra file, individually and in order, followed by every extra directory —
so all file deletions are attempted before any directory deletion; a failed
attempt yields a `false` event (the printed warning) while the loops
continue through every remaining entry, and the call still returns `.ok`
(the run is not aborted). -/
theorem handleExtraFiles_delete_policy (sm : Int)
    (scs : List (String × FSTree)) (dst : FSTree) (opts : SyncOptions)
    (delFails : RelPath → Bool) (stats : CopyStats)
    (hdel : opts.deleteExtra = true) :
    handleExtraFiles (.dir sm scs) dst opts delFails stats =
      .ok (extraOutcomeOf (.dir sm scs) dst opts delFails stats) ∧
    (extraOutcomeOf (.dir sm scs) dst opts delFails stats).delTrace =
      (extraOutcomeOf (.dir sm scs) dst opts delFails
            stats).extraFiles.map
          (fun x => DelEvent.delFile x.1 (!delFails x.1)) ++
        (extraOutcomeOf (.dir sm scs) dst opts delFails
            stats).extraDirs.map
          (fun d => DelEvent.delDir d (!delFails d)) ∧
    (∀ x ∈ (extraOutcomeOf (.dir sm scs) dst opts delFails
        stats).extraFiles,
      DelEvent.delFile x.1 (!delFails x.1) ∈
        (extraOutcomeOf (.dir sm scs) dst opts delFails stats).delTrace) ∧
    (∀ d ∈ (extraOutcomeOf (.dir sm scs) dst opts delFails
        stats).extraDirs,
      DelEvent.delDir d (!delFails d) ∈
        (extraOutcomeOf (.dir sm scs) dst opts delFails stats).delTrace) := by
  refine ⟨handleExtraFiles_returns_ok _ _ _ _ _, ?_⟩
  rw [extraOutcomeOf_dir_delete sm scs dst opts delFails stats hdel]
  dsimp only
  rw [deleteFilesRun_trace, deleteDirsRun_trace]
  refine ⟨rfl, ?_, ?_⟩
  · intro x hx
    exact List.mem_append_left _ (List.mem_map.mpr ⟨x, hx, rfl⟩)
  · intro d hd
    exact List.mem_append_right _ (List.mem_map.mpr ⟨d, hd, rfl⟩)

/-- A destination with one extra file `c` and one extra directory `e`. -/
def dstC6 : FSTree := .dir 0 [("c", .file 2 0), ("e", .dir 0 [])]

/-- A deletion oracle that fails exactly on `c`. -/
def delFailsC6 : RelPath → Bool := fun p => p == ["c"]

/-- Witness for C6: against an empty source, the failing delete of file `c`
produces a warning event, the directory `e` is still deleted afterwards,
and the call returns `.ok`. -/
theorem handleExtraFiles_delete_policy_witness :
    handleExtraFiles srcC5 dstC6 ⟨true, true⟩ delFailsC6 .init =
      .ok (extraOutcomeOf srcC5 dstC6 ⟨true, true⟩ delFailsC6 .init) ∧
    DelEvent.delFile ["c"] false ∈
      (extraOutcomeOf srcC5 dstC6 ⟨true, true⟩ delFailsC6 .init).delTrace ∧
    DelEvent.delDir ["e"] true ∈
      (extraOutcomeOf srcC5 dstC6 ⟨true, true⟩ delFailsC6 .init).delTrace :=
  ⟨(handleExtraFiles_delete_policy 0 [] dstC6 ⟨true, true⟩ delFailsC6 .init
      rfl).1,
   (handleExtraFiles_delete_policy 0 [] dstC6 ⟨true, true⟩ delFailsC6 .init
      rfl).2.2.1 (["c"], 2) (by decide),
   (handleExtraFiles_delete_policy 0 [] dstC6 ⟨true, true⟩ delFailsC6 .init
      rfl).2.2.2 ["e"] (by decide)⟩

/-- C10: every extra directory is accounted as a single unit — it adds
exactly 1 to the extra-found counter (the counters increase by exactly the
number of reported files plus reported directories), on successful deletion
exactly 1 to the extra-deleted counter, nothing inside it is ever reported
(a reported path extending an extra directory is the directory itself), and
the extra-bytes counter accumulates only the sizes of the individually
reported extra files. -/
theorem handleExtraFiles_extraDir_single_unit (sm : Int)
    (scs : List (String × FSTree)) (dst : FSTree) (opts : SyncOptions)
    (delFails : RelPath → Bool) (stats : CopyStats) :
    (extraOutcomeOf (.dir sm scs) dst opts delFails
        stats).stats.extraFound =
      stats.extraFound +
        (extraOutcomeOf (.dir sm scs) dst opts delFails
          stats).extraFiles.length +
        (extraOutcomeOf (.dir sm scs) dst opts delFails
          stats).extraDirs.length ∧
    (extraOutcomeOf (.dir sm scs) dst opts delFails
        stats).stats.extraBytes =
      stats.extraBytes +
        ((extraOutcomeOf (.dir sm scs) dst opts delFails
          stats).extraFiles.map Prod.snd).sum ∧
    (opts.deleteExtra = true →
      (extraOutcomeOf (.dir sm scs) dst opts delFails
          stats).stats.extraDeleted =
        stats.extraDeleted +
          (((extraOutcomeOf (.dir sm scs) dst opts delFails
              stats).extraFiles.filter
                (fun x => !delFails x.1)).length +
            ((extraOutcomeOf (.dir sm scs) dst opts delFails
              stats).extraDirs.filter (fun d => !delFails d)).length)) ∧
    (opts.deleteExtra = false →
      (extraOutcomeOf (.dir sm scs) dst opts delFails
          stats).stats.extraDeleted = stats.extraDeleted) ∧
    (∀ d ∈ (extraOutcomeOf (.dir sm scs) dst opts delFails
        stats).extraDirs, ∀ p,
      (p ∈ (extraOutcomeOf (.dir sm scs) dst opts delFails
          stats).extraFiles.map Prod.fst ∨
        p ∈ (extraOutcomeOf (.dir sm scs) dst opts delFails
          stats).extraDirs) →
      d <+: p → d = p) := by
  by_cases hdel : opts.deleteExtra
  · rw [extraOutcomeOf_dir_delete sm scs dst opts delFails stats hdel]
    dsimp only
    refine ⟨rfl, rfl, ?_, ?_, ?_⟩
    · intro _
      rw [deleteFilesRun_count, deleteDirsRun_count]
    · intro hf
      rw [hdel] at hf
      cases hf
    · intro d hd p hp hpre
      exact reported_prefix_eq (subPathsList scs) dst hd hp hpre
  · have hdel' : opts.deleteExtra = false := by simpa using hdel
    rw [extraOutcomeOf_dir_nodelete sm scs dst opts delFails stats hdel']
    dsimp only
    refine ⟨rfl, rfl, ?_, ?_, ?_⟩
    · intro hf
      rw [hdel'] at hf
      cases hf
    · intro _
      rfl
    · intro d hd p hp hpre
      exact reported_prefix_eq (subPathsList scs) dst hd hp hpre

/-- Witness for C10: at the concrete instance with a failing file delete,
the extra directory `e` contributes exactly 1 to extra-found and 1 to
extra-deleted; extra-bytes holds only the extra file's 2 bytes. -/
theorem handleExtraFiles_extraDir_single_unit_witness :
    (extraOutcomeOf srcC5 dstC6 ⟨true, true⟩ delFailsC6
        .init).stats.extraFound =
      CopyStats.init.extraFound +
        (extraOutcomeOf srcC5 dstC6 ⟨true, true⟩ delFailsC6
          .init).extraFiles.length +
        (extraOutcomeOf srcC5 dstC6 ⟨true, true⟩ delFailsC6
          .init).extraDirs.length ∧
    (extraOutcomeOf srcC5 dstC6 ⟨true, true⟩ delFailsC6
        .init).stats.extraDeleted =
      CopyStats.init.extraDeleted +
        (((extraOutcomeOf srcC5 dstC6 ⟨true, true⟩ delFailsC6
            .init).extraFiles.filter
              (fun x => !delFailsC6 x.1)).length +
          ((extraOutcomeOf srcC5 dstC6 ⟨true, true⟩ delFailsC6
            .init).extraDirs.filter (fun d => !delFailsC6 d)).length) :=
  ⟨(handleExtraFiles_extraDir_single_unit 0 [] dstC6 ⟨true, true⟩ delFailsC6
      .init).1,
   (handleExtraFiles_extraDir_single_unit 0 [] dstC6 ⟨true, true⟩ delFailsC6
      .init).2.2.1 rfl⟩
